import Mathlib

/-!
Verification of the reconciliation core of `sync.py` (google-contacts-sync).

The Python source is shallowly embedded: replicas are lists of contact and
group records, the remote store operations of the `Contacts` class (which is
not part of the sources under verification, only its interface contract) are
modelled from the spec, and each phase of a sync pass is a pure function on
an explicit state.  Timestamps are naturals, tags and resource names are
strings, and fallible code returns `Except`.
-/

namespace GCSync

abbrev Tag := String
abbrev RN := String
abbrev Time := Nat

/-- A group membership entry of a contact payload: the pair of
`contactGroupId` and `contactGroupResourceName` as carried in the
`memberships` list of a person resource. -/
structure Membership where
  groupId : String
  groupRN : String
  deriving DecidableEq

/-- The payload of a contact as returned by `acc.get(rn)`: the fields the
sync core reads and writes (display name, the sync tag stored in client
data, and the group memberships). -/
structure ContactPayload where
  name : String
  clientTag : Option Tag
  memberships : List Membership
  deriving DecidableEq

/-- One contact record of a replica, as cached in `acc.info`: local
resource name, optional sync tag, display name, last-update time and
group memberships. -/
structure ContactRec where
  rn : RN
  tag : Option Tag
  name : String
  updated : Time
  memberships : List Membership
  deriving DecidableEq

/-- The payload of a contact group as returned by `acc.get_contactGroup`:
its name and the client data holding the sync tag. -/
structure GroupPayload where
  name : String
  clientData : Option Tag
  deriving DecidableEq

/-- One contact-group record of a replica, as cached in `acc.info_group`. -/
structure GroupRec where
  rn : RN
  tag : Option Tag
  name : String
  updated : Time
  deriving DecidableEq

/-- One account's address book: its contacts and its contact groups. -/
structure Replica where
  contacts : List ContactRec
  groups : List GroupRec
  deriving DecidableEq

/-- The membership entry of the implicit default group: its
`contactGroupId` is the literal `myContacts`. -/
def isDefault (m : Membership) : Bool := m.groupId == "myContacts"

/-- `remove_prefix` of sync.py: strip `pre` from the front of `text` when
present, otherwise return `text` unchanged. -/
def remove_pre (text pre : String) : String :=
  if pre.data.isPrefixOf text.data then String.mk (text.data.drop pre.data.length)
  else text

/-- Modelled from the spec: `localIdToTag(groupRn) -> tag|null` of the
ReplicaStore contract (`rn_to_tag_contactGroup` of contacts.py, which is
not under the verified sources): look the group up by its local resource
name and return its sync tag, or `none` when absent or untagged. -/
def rnToTagGroup (gs : List GroupRec) (grn : RN) : Option Tag :=
  (gs.find? (fun g => g.rn == grn)).bind (fun g => g.tag)

/-- Modelled from the spec: `tagToLocalId(tag) -> groupRn|null` of the
ReplicaStore contract (`tag_to_rn_contactGroup` of contacts.py): resolve a
sync tag to the local resource name of the group bearing it, `none` when no
group of the replica bears the tag (a `none` query finds nothing). -/
def tagToRnGroup (gs : List GroupRec) (t : Option Tag) : Option RN :=
  match t with
  | none => none
  | some t => (gs.find? (fun g => g.tag == some t)).map (fun g => g.rn)

/-- The group sync tags the source contact's non-default memberships
resolve to: `groupTags` of sync.py, computed from the `groupRNs` of all
memberships whose `contactGroupId` is not `myContacts`. -/
def groupTagsOfPayload (gsSrc : List GroupRec) (p : ContactPayload) : List (Option Tag) :=
  ((p.memberships.filter (fun m => !(isDefault m))).map (fun m => m.groupRN)).map
    (rnToTagGroup gsSrc)

/-- Translation of one group tag for the contact ADDITION phase: sync.py
lines 420-433 call `other.tag_to_rn_contactGroup(groupTag)` and use the
result without a `None` check, so a missing mapping makes
`remove_prefix(None, ...)` raise; this is modelled as `Except.error`. -/
def addTransOne (gsDst : List GroupRec) (gt : Option Tag) : Except Unit Membership :=
  match tagToRnGroup gsDst gt with
  | none => Except.error ()
  | some grn => Except.ok { groupId := remove_pre grn "contactGroups/", groupRN := grn }

/-- The payload pushed to one destination replica by the contact ADDITION
fan-out (sync.py lines 391-438): memberships are stripped to the default
ones and, when any non-default membership existed, one translated entry per
`groupTag` is appended; a tag with no mapping in the destination aborts. -/
def addPayloadForG (gsSrc gsDst : List GroupRec) (fetched : ContactPayload) :
    Except Unit ContactPayload :=
  let groupTags := groupTagsOfPayload gsSrc fetched
  let stripped := fetched.memberships.filter isDefault
  if groupTags.isEmpty then Except.ok { fetched with memberships := stripped }
  else
    match groupTags.mapM (addTransOne gsDst) with
    | Except.error e => Except.error e
    | Except.ok extra => Except.ok { fetched with memberships := stripped ++ extra }

/-- Translation of one group tag for the contact UPDATE phase: sync.py
lines 496-508 skip a tag whose mapping is missing (`if not rn: continue`),
so the membership is silently dropped. -/
def updTransOne (gsDst : List GroupRec) (gt : Option Tag) : Option Membership :=
  match tagToRnGroup gsDst gt with
  | none => none
  | some grn => some { groupId := remove_pre grn "contactGroups/", groupRN := grn }

/-- The payload pushed to one destination replica by the contact UPDATE
fan-out (sync.py lines 482-512): the stripped membership list plus the
translations that resolve in the destination. -/
def updPayloadFor (gsSrc gsDst : List GroupRec) (contact : ContactPayload) : ContactPayload :=
  let groupTags := groupTagsOfPayload gsSrc contact
  let stripped := contact.memberships.filter isDefault
  if groupTags.isEmpty then { contact with memberships := stripped }
  else { contact with memberships := stripped ++ groupTags.filterMap (updTransOne gsDst) }

/-- One `otheracc.update(x, payload)` call issued by the contact update
fan-out: destination account index, the tag variable `x` it was keyed by,
and the payload sent. -/
structure UpdPush where
  dst : Nat
  key : Option Tag
  payload : ContactPayload
  deriving DecidableEq

/-- The contact update fan-out of sync.py lines 459-512 for one entry of
`t2aru`: the source contact of account `i` was fetched as `contact` under
key `k`.  The fetched object's memberships are stripped in place (line
483); each other account receives its own translated copy.  The Python
inner loop `for tag in groupTags` SHADOWS the outer `tag`, so when
`groupTags` is non-empty the update is keyed by the LAST group tag instead
of the contact's tag.  Returns the final value of the caller's `contact`
variable and the pushes issued. -/
def updateFanOutC (con : List Replica) (i : Nat) (k : Option Tag) (contact : ContactPayload) :
    ContactPayload × List UpdPush :=
  let stripped := { contact with memberships := contact.memberships.filter isDefault }
  match con[i]? with
  | none => (stripped, [])
  | some acc =>
    let groupTags := groupTagsOfPayload acc.groups contact
    let pushes := (List.range con.length).foldl (fun ps j =>
      if j = i then ps
      else match con[j]? with
        | none => ps
        | some other =>
          ps ++ [{ dst := j,
                   key := if groupTags.isEmpty then k else groupTags.getLastD none,
                   payload := updPayloadFor acc.groups other.groups contact }]) []
    (stripped, pushes)

/-- Left fold of a fallible step over a list, short-circuiting on the
first error: the shape of every loop of sync.py whose body can raise. -/
def foldE (f : σ → α → Except ε σ) : List α → σ → Except ε σ
  | [], s => Except.ok s
  | a :: l, s =>
    match f s a with
    | Except.error e => Except.error e
    | Except.ok s' => foldE f l s'

/-- State threaded through an addition phase: the replicas, the process-wide
`all_sync_tags` set of used tags, the stream of candidate random tags the
allocator draws from, and the pass's `added` list of (account, rn) pairs. -/
structure CSt where
  con : List Replica
  used : List Tag
  supply : List Tag
  added : List (Nat × RN)
  deriving DecidableEq

/-- `new_tag` of sync.py: draw candidates until one is not in the used set
(`all_sync_tags`); the infinite random stream is modelled by a finite
supply, so exhaustion is `none`.  The chosen tag is recorded as used by the
caller. -/
def popFresh : List Tag → List Tag → Option (Tag × List Tag)
  | [], _ => none
  | t :: rest, used => if t ∈ used then popFresh rest used else some (t, rest)

/-- Modelled from the spec: `updateTag(rn, tag)` of the ReplicaStore
contract (`update_tag` of contacts.py): attach the tag to the contact with
this local resource name. -/
def updateTagC (rep : Replica) (rn : RN) (t : Tag) : Replica :=
  { rep with
    contacts := rep.contacts.map (fun c => if c.rn == rn then { c with tag := some t } else c) }

/-- Modelled from the spec: `updateGroupTag(rn, tag)` of the ReplicaStore
contract (`update_contactGroup_tag` of contacts.py). -/
def updateTagG (rep : Replica) (rn : RN) (t : Tag) : Replica :=
  { rep with
    groups := rep.groups.map (fun g => if g.rn == rn then { g with tag := some t } else g) }

/-- Modelled from the spec: `get(rn)` of the ReplicaStore contract: fetch
the current payload of the contact with this local resource name. -/
def getContact (rep : Replica) (rn : RN) : Option ContactPayload :=
  (rep.contacts.find? (fun c => c.rn == rn)).map
    (fun c => { name := c.name, clientTag := c.tag, memberships := c.memberships })

/-- Modelled from the spec: `getGroup(rn)` of the ReplicaStore contract. -/
def getGroup (rep : Replica) (rn : RN) : Option GroupPayload :=
  (rep.groups.find? (fun g => g.rn == rn)).map
    (fun g => { name := g.name, clientData := g.tag })

/-- Modelled from the spec: the fresh local resource name the remote store
assigns to a created contact; freshness is realised by a string strictly
longer than every resource name already present in the replica. -/
def freshRnC (rep : Replica) : RN :=
  String.mk (rep.contacts.foldl (fun a c => a ++ c.rn.data) ['x'])

/-- Modelled from the spec: the fresh local resource name assigned to a
created contact group. -/
def freshRnG (rep : Replica) : RN :=
  String.mk (rep.groups.foldl (fun a g => a ++ g.rn.data) ['x'])

/-- Modelled from the spec: `create(payload)` of the ReplicaStore contract
(`acc.add` of contacts.py): create a contact with this payload, the sync
tag riding in the client data, and return the new local resource name. -/
def addContact (rep : Replica) (now : Time) (p : ContactPayload) : RN × Replica :=
  let rn := freshRnC rep
  (rn, { rep with contacts := rep.contacts ++
          [{ rn := rn, tag := p.clientTag, name := p.name, updated := now,
             memberships := p.memberships }] })

/-- Modelled from the spec: `createGroup(payload)` of the ReplicaStore
contract (`acc.add_contactGroup` of contacts.py). -/
def addGroupR (rep : Replica) (now : Time) (p : GroupPayload) : RN × Replica :=
  let rn := freshRnG rep
  (rn, { rep with groups := rep.groups ++
          [{ rn := rn, tag := p.clientData, name := p.name, updated := now }] })

/-- One destination step of the contact addition fan-out (sync.py lines
411-439): skip the source account, translate the memberships for the
destination (aborting on a missing mapping, see `addTransOne`), create the
contact there and record the new (account, rn) pair in `added`. -/
def destStepC (i : Nat) (now : Time) (gsSrc : List GroupRec) (newcontact : ContactPayload)
    (s : CSt) (j : Nat) : Except Unit CSt :=
  if j = i then Except.ok s
  else match s.con[j]? with
    | none => Except.error ()
    | some dst =>
      match addPayloadForG gsSrc dst.groups newcontact with
      | Except.error e => Except.error e
      | Except.ok p =>
        let pr := addContact dst now p
        Except.ok { s with con := s.con.set j pr.2, added := s.added ++ [(j, pr.1)] }

/-- Processing of one untagged contact `rn` of account `i` in the addition
phase (sync.py lines 371-439): allocate a fresh tag, write it back to the
source record, fetch the tagged record, append the source pair to `added`,
then fan out to every other account. -/
def processRecordC (now : Time) (i : Nat) (rn : RN) (st : CSt) : Except Unit CSt :=
  match popFresh st.supply st.used, st.con[i]? with
  | none, _ => Except.error ()
  | some _, none => Except.error ()
  | some (t, supply'), some acc0 =>
    let acc1 := updateTagC acc0 rn t
    match getContact acc1 rn with
    | none => Except.error ()
    | some newcontact =>
      let st1 : CSt := { con := st.con.set i acc1, used := t :: st.used,
                         supply := supply', added := st.added ++ [(i, rn)] }
      foldE (destStepC i now acc1.groups newcontact) (List.range st1.con.length) st1

/-- The contact addition phase for one account: `toadd` is the snapshot of
the account's untagged contacts when the account is reached (sync.py lines
363-371), each processed in order. -/
def processAccountC (now : Time) (i : Nat) (st : CSt) : Except Unit CSt :=
  match st.con[i]? with
  | none => Except.error ()
  | some acc =>
    foldE (fun s rn => processRecordC now i rn s)
      ((acc.contacts.filter (fun c => c.tag == none)).map (fun c => c.rn)) st

/-- The whole contact addition phase (sync.py lines 360-439): accounts are
drained one after the other. -/
def contactAdditionPhase (now : Time) (st : CSt) : Except Unit CSt :=
  foldE (fun s i => processAccountC now i s) (List.range st.con.length) st

/-- One destination step of the group addition fan-out (sync.py lines
284-296): the pushed payload keeps the fetched group's name and client
data (the wrapper dict `tmp`). -/
def destStepG (i : Nat) (now : Time) (tmp : GroupPayload) (s : CSt) (j : Nat) :
    Except Unit CSt :=
  if j = i then Except.ok s
  else match s.con[j]? with
    | none => Except.error ()
    | some dst =>
      let pr := addGroupR dst now tmp
      Except.ok { s with con := s.con.set j pr.2, added := s.added ++ [(j, pr.1)] }

/-- Processing of one untagged contact group of account `i` in the group
addition phase (sync.py lines 273-296). -/
def processRecordG (now : Time) (i : Nat) (rn : RN) (st : CSt) : Except Unit CSt :=
  match popFresh st.supply st.used, st.con[i]? with
  | none, _ => Except.error ()
  | some _, none => Except.error ()
  | some (t, supply'), some acc0 =>
    let acc1 := updateTagG acc0 rn t
    match getGroup acc1 rn with
    | none => Except.error ()
    | some newg =>
      let tmp : GroupPayload := { name := newg.name, clientData := newg.clientData }
      let st1 : CSt := { con := st.con.set i acc1, used := t :: st.used,
                         supply := supply', added := st.added ++ [(i, rn)] }
      foldE (destStepG i now tmp) (List.range st1.con.length) st1

/-- The group addition phase for one account (sync.py lines 265-273). -/
def processAccountG (now : Time) (i : Nat) (st : CSt) : Except Unit CSt :=
  match st.con[i]? with
  | none => Except.error ()
  | some acc =>
    foldE (fun s rn => processRecordG now i rn s)
      ((acc.groups.filter (fun g => g.tag == none)).map (fun g => g.rn)) st

/-- The whole group addition phase (sync.py lines 262-296). -/
def groupAdditionPhase (now : Time) (st : CSt) : Except Unit CSt :=
  foldE (fun s i => processAccountG now i s) (List.range st.con.length) st

/-- Accumulating append loop: `acc = init; for x in l: acc += f x`. -/
def catMap (f : α → List β) (l : List α) (init : List β) : List β :=
  l.foldl (fun a x => a ++ f x) init

/-- The non-null contact tags of a replica. -/
def contactTagsOf (rep : Replica) : List Tag :=
  rep.contacts.filterMap (fun c => c.tag)

/-- The non-null group tags of a replica. -/
def groupTagsOf (rep : Replica) : List Tag :=
  rep.groups.filterMap (fun g => g.tag)

/-- `all_sync_tags_ContactGroups` (sync.py lines 228-232): the union of
every replica's non-null group tags, built from scratch. -/
def groupGlobal (con : List Replica) : List Tag :=
  catMap groupTagsOf con []

/-- The pass-wide `todel` set of the group deletion phase (sync.py lines
237-247): for each replica, the global group tags it is missing. -/
def groupTodel (con : List Replica) : List Tag :=
  catMap (fun rep => (groupGlobal con).filter (fun t => !((groupTagsOf rep).contains t))) con []

/-- `all_sync_tags` as it stands after sync.py lines 333-336: the set the
contact deletion phase diffs against.  It starts from the process-wide used
set `allSync` — which already holds every tag allocated by `new_tag` during
the group addition phase — and unions in each replica's contact tags. -/
def contactGlobal (allSync : List Tag) (con : List Replica) : List Tag :=
  catMap contactTagsOf con allSync

/-- The pass-wide `todel` set of the contact deletion phase (sync.py lines
340-347). -/
def contactTodel (allSync : List Tag) (con : List Replica) : List Tag :=
  catMap (fun rep => (contactGlobal allSync con).filter
    (fun t => !((contactTagsOf rep).contains t))) con []

/-- One delete-by-tag call: the account it is issued on and the tag. -/
structure DelCall where
  acc : Nat
  tag : Tag
  deriving DecidableEq

/-- The delete-by-tag calls a deletion phase issues (sync.py lines 248-252
and 348-352): nothing when `todel` is empty, otherwise one call per
account per tag of `todel`. -/
def delCallsFor (n : Nat) (todel : List Tag) : List DelCall :=
  if todel.isEmpty then []
  else catMap (fun j => todel.map (fun t => { acc := j, tag := t })) (List.range n) []

/-- The delete calls of the group deletion phase. -/
def groupDeletionCalls (con : List Replica) : List DelCall :=
  delCallsFor con.length (groupTodel con)

/-- The delete calls of the contact deletion phase. -/
def contactDeletionCalls (allSync : List Tag) (con : List Replica) : List DelCall :=
  delCallsFor con.length (contactTodel allSync con)

/-- Modelled from the spec: `deleteGroupByTag` of the ReplicaStore contract
applied for every tag of `todel` (a no-op for a tag the replica does not
hold), composed with the snapshot refresh of sync.py lines 257-259. -/
def applyGroupDeletes (con : List Replica) (todel : List Tag) : List Replica :=
  con.map (fun rep => { rep with
    groups := rep.groups.filter (fun g =>
      match g.tag with
      | none => true
      | some t => !(todel.contains t)) })

/-- Modelled from the spec: `deleteByTag` of the ReplicaStore contract
applied for every tag of `todel`, composed with the snapshot refresh of
sync.py lines 356-358. -/
def applyContactDeletes (con : List Replica) (todel : List Tag) : List Replica :=
  con.map (fun rep => { rep with
    contacts := rep.contacts.filter (fun c =>
      match c.tag with
      | none => true
      | some t => !(todel.contains t)) })

/-- One entry of the `tru` lists feeding `t2aru` (sync.py lines 306-312 and
450-456): the record's tag, its account index, its resource name and its
update time. -/
structure Cand where
  tag : Option Tag
  acc : Nat
  rn : RN
  u : Time
  deriving DecidableEq

/-- The update-phase candidate list over contacts (sync.py lines 449-456):
records updated strictly after the watermark whose (account, rn) pair is
not in `added`. -/
def candsOf (lastupdate : Time) (added : List (Nat × RN)) (con : List Replica) : List Cand :=
  catMap (fun i =>
    match con[i]? with
    | none => []
    | some rep =>
      (rep.contacts.filter (fun v =>
        decide (lastupdate < v.updated) && !(added.contains (i, v.rn)))).map
        (fun v => { tag := v.tag, acc := i, rn := v.rn, u := v.updated }))
    (List.range con.length) []

/-- The update-phase candidate list over contact groups (sync.py lines
305-312). -/
def groupCandsOf (lastupdate : Time) (added : List (Nat × RN)) (con : List Replica) :
    List Cand :=
  catMap (fun i =>
    match con[i]? with
    | none => []
    | some rep =>
      (rep.groups.filter (fun v =>
        decide (lastupdate < v.updated) && !(added.contains (i, v.rn)))).map
        (fun v => { tag := v.tag, acc := i, rn := v.rn, u := v.updated }))
    (List.range con.length) []

/-- The bucket `t2aru[k]`: candidates are grouped by tag, each bucket in
encounter order (the dict's `setdefault ... append`). -/
def t2aruAt (cs : List Cand) (k : Option Tag) : List Cand :=
  cs.filter (fun c => c.tag == k)

/-- The keys of `t2aru` in first-encounter order. -/
def keyList (cs : List Cand) : List (Option Tag) :=
  cs.foldl (fun ks c => if ks.contains c.tag then ks else ks ++ [c.tag]) []

/-- `max(val, key=lambda x: x[2])` of sync.py lines 317 and 461: the first
entry of maximal update time (Python's max keeps the current best unless a
later entry is strictly greater). -/
def pickNewest : List Cand → Option Cand
  | [] => none
  | c :: rest => some (rest.foldl (fun b x => if b.u < x.u then x else b) c)

/-- A write against a remote replica or the config file, as observed over
one normal-mode pass: the watermark save, delete-by-tag calls, and update
calls of the two update phases. -/
inductive Op where
  | save : Time → Op
  | delG : Nat → Tag → Op
  | delC : Nat → Tag → Op
  | updG : Nat → Option Tag → Op
  | updC : Nat → Option Tag → Op
  deriving DecidableEq

/-- Modelled from the spec: `updateGroup(tag, payload)` of the ReplicaStore
contract: the record currently bearing this tag takes the pushed name. -/
def updGroupByTag (rep : Replica) (k : Option Tag) (p : GroupPayload) : Replica :=
  { rep with
    groups := rep.groups.map (fun g => if g.tag == k then { g with name := p.name } else g) }

/-- Modelled from the spec: `update(tag, payload)` of the ReplicaStore
contract: the record currently bearing this tag takes the pushed name and
memberships. -/
def updContactByTag (rep : Replica) (k : Option Tag) (p : ContactPayload) : Replica :=
  { rep with
    contacts := rep.contacts.map (fun c =>
      if c.tag == k then { c with name := p.name, memberships := p.memberships } else c) }

/-- The group update phase (sync.py lines 300-325): group the candidates by
tag, pick the newest per tag, fetch it and push it to every other account
under that tag. -/
def runGroupUpdates (lastupdate : Time) (added : List (Nat × RN)) (con : List Replica) :
    List Replica × List Op :=
  let cs := groupCandsOf lastupdate added con
  (keyList cs).foldl (fun pr k =>
    match pickNewest (t2aruAt cs k) with
    | none => pr
    | some m =>
      match pr.1[m.acc]? with
      | none => pr
      | some acc =>
        match getGroup acc m.rn with
        | none => pr
        | some p =>
          (List.range pr.1.length).foldl (fun pr2 j =>
            if j = m.acc then pr2
            else match pr2.1[j]? with
              | none => pr2
              | some other =>
                (pr2.1.set j (updGroupByTag other k p), pr2.2 ++ [Op.updG j k])) pr)
    (con, [])

/-- Application of one push of the contact update fan-out to the replicas. -/
def applyUpdPush (con : List Replica) (p : UpdPush) : List Replica :=
  match con[p.dst]? with
  | none => con
  | some rep => con.set p.dst (updContactByTag rep p.key p.payload)

/-- The contact update phase (sync.py lines 444-512): group the candidates
by tag, pick the newest per tag, fetch it and fan it out with
`updateFanOutC` (which carries the tag-shadowing of the source). -/
def runContactUpdates (lastupdate : Time) (added : List (Nat × RN)) (con : List Replica) :
    List Replica × List Op :=
  let cs := candsOf lastupdate added con
  (keyList cs).foldl (fun pr k =>
    match pickNewest (t2aruAt cs k) with
    | none => pr
    | some m =>
      match pr.1[m.acc]? with
      | none => pr
      | some acc =>
        match getContact acc m.rn with
        | none => pr
        | some contact =>
          let fo := updateFanOutC pr.1 m.acc k contact
          (fo.2.foldl applyUpdPush pr.1, pr.2 ++ fo.2.map (fun u => Op.updC u.dst u.key)))
    (con, [])

/-- The bootstrap check of sync.py lines 215-222: an account all of whose
contacts are untagged (vacuously, an account with no contacts) has never
been synced. -/
def bootstrapFail (con : List Replica) : Bool :=
  con.any (fun acc => acc.contacts.all (fun v => v.tag == none))

/-- How a normal-mode pass can abort: exit code 2 from the bootstrap check,
or an uncaught exception (crash) in a later phase. -/
inductive PassErr where
  | exit2 : PassErr
  | crash : PassErr
  deriving DecidableEq

/-- One whole normal-mode pass of sync.py (lines 214-515): bootstrap check,
then groups (delete, add, update), then contacts (delete, add, update),
then `save_config`, which stores `utcnow() + 1 second` as the new
watermark.  Returns the pass outcome and the trace of observable writes;
on an abort the writes already issued are kept and no save is present. -/
def runNormalPass (now lastupdate : Time) (supply : List Tag) (con : List Replica) :
    Except PassErr (List Replica) × List Op :=
  if bootstrapFail con then (Except.error PassErr.exit2, [])
  else
    match groupAdditionPhase now
        { con := applyGroupDeletes con (groupTodel con), used := [], supply := supply,
          added := [] } with
    | Except.error _ =>
      (Except.error PassErr.crash,
        (groupDeletionCalls con).map (fun c => Op.delG c.acc c.tag))
    | Except.ok stG =>
      match contactAdditionPhase now
          { con := applyContactDeletes (runGroupUpdates lastupdate stG.added stG.con).1
              (contactTodel stG.used (runGroupUpdates lastupdate stG.added stG.con).1),
            used := contactGlobal stG.used (runGroupUpdates lastupdate stG.added stG.con).1,
            supply := stG.supply, added := [] } with
      | Except.error _ =>
        (Except.error PassErr.crash,
          (groupDeletionCalls con).map (fun c => Op.delG c.acc c.tag) ++
            (runGroupUpdates lastupdate stG.added stG.con).2 ++
            (contactDeletionCalls stG.used
                (runGroupUpdates lastupdate stG.added stG.con).1).map
              (fun c => Op.delC c.acc c.tag))
      | Except.ok stC =>
        (Except.ok (runContactUpdates lastupdate stC.added stC.con).1,
          (groupDeletionCalls con).map (fun c => Op.delG c.acc c.tag) ++
            (runGroupUpdates lastupdate stG.added stG.con).2 ++
            (contactDeletionCalls stG.used
                (runGroupUpdates lastupdate stG.added stG.con).1).map
              (fun c => Op.delC c.acc c.tag) ++
            (runContactUpdates lastupdate stC.added stC.con).2 ++ [Op.save (now + 1)])

/-- One iteration of `duplicates` of sync.py: the pair carries the `seen`
set and the `dups` set; an element already seen lands in the duplicate
set. -/
def dupStep (p : List String × List String) (x : String) : List String × List String :=
  if p.1.contains x then (p.1, if p.2.contains x then p.2 else p.2 ++ [x])
  else (p.1 ++ [x], p.2)

/-- `duplicates` of sync.py lines 34-46. -/
def duplicatesL (ls : List String) : List String :=
  (ls.foldl dupStep ([], [])).2

/-- A write issued by the init-mode loop: tagging a record, updating a
record by tag, or creating a record. -/
inductive InitOp where
  | wtag : Nat → RN → Tag → InitOp
  | wupd : Nat → Tag → InitOp
  | wadd : Nat → InitOp
  deriving DecidableEq

/-- State of the init-mode loop: the `done` name set, the used-tag set, the
allocator supply and the writes issued so far. -/
structure ISt where
  done : List String
  used : List Tag
  supply : List Tag
  ops : List InitOp
  deriving DecidableEq

/-- Processing of one contact in the init-mode loop (sync.py lines
181-202): skip a name already done; otherwise ensure the record has a tag
(allocating and writing one back if not), then for every other account
either tag-and-update the record of the same name or create the contact.
Modelled from the spec: `name_to_rn` of contacts.py looks the name up in
the account's cached snapshot, which remote writes during the loop do not
refresh. -/
def initRecord (con : List Replica) (n : Nat) (i : Nat) (c : ContactRec) (s : ISt) :
    Except Unit ISt :=
  if s.done.contains c.name then Except.ok s
  else
    match (match c.tag with
           | some t => some (t, s.supply, s.used, s.ops)
           | none =>
             match popFresh s.supply s.used with
             | none => none
             | some (t, sup') =>
               some (t, sup', t :: s.used, s.ops ++ [InitOp.wtag i c.rn t])) with
    | none => Except.error ()
    | some (t, sup', used', ops') =>
      let ops2 := (List.range n).foldl (fun os j =>
        if j = i then os
        else match con[j]? with
          | none => os
          | some other =>
            match other.contacts.find? (fun d => d.name == c.name) with
            | some d => os ++ [InitOp.wtag j d.rn t, InitOp.wupd j t]
            | none => os ++ [InitOp.wadd j]) ops'
      Except.ok { done := s.done ++ [c.name], used := used', supply := sup', ops := ops2 }

/-- Init mode of sync.py (lines 161-211): first the duplicate-name
pre-check over every account — any duplicate aborts the run with exit code
1 before a single write is issued — then the name-based bootstrap loop.
Returns the exit code and the writes issued. -/
def runInitMode (supply : List Tag) (con : List Replica) : Except Unit (Nat × List InitOp) :=
  if con.any (fun acc => !((duplicatesL (acc.contacts.map (fun c => c.name))).isEmpty)) then
    Except.ok (1, [])
  else
    match foldE (fun s i =>
            match con[i]? with
            | none => Except.error ()
            | some acc => foldE (fun s2 c => initRecord con con.length i c s2) acc.contacts s)
          (List.range con.length)
          { done := [], used := [], supply := supply, ops := [] } with
    | Except.error e => Except.error e
    | Except.ok s => Except.ok (0, s.ops)

/-! ### Concrete example states used by the evaluation theorems -/

/-- The implicit default membership entry. -/
def defaultM : Membership :=
  { groupId := "myContacts", groupRN := "contactGroups/myContacts" }

/-- A non-default membership of the source replica, pointing at the group
with resource name `contactGroups/g1`. -/
def mG1 : Membership := { groupId := "g1", groupRN := "contactGroups/g1" }

/-- Source replica of the fan-out examples: one contact with tag `t` that
belongs to the group tagged `g`. -/
def repFan0 : Replica :=
  { contacts := [{ rn := "c0", tag := some "t", name := "al", updated := 5,
                   memberships := [defaultM, mG1] }],
    groups := [{ rn := "contactGroups/g1", tag := some "g", name := "Friends",
                 updated := 0 }] }

/-- Destination replica of the fan-out examples: holds the contact tag `t`
and a group with the same sync tag `g` under a different resource name. -/
def repFan1 : Replica :=
  { contacts := [{ rn := "d0", tag := some "t", name := "al", updated := 1,
                   memberships := [defaultM] }],
    groups := [{ rn := "contactGroups/z9", tag := some "g", name := "Friends",
                 updated := 0 }] }

/-- The two-replica world of the fan-out examples. -/
def conFan : List Replica := [repFan0, repFan1]

/-- The payload `acc.get(rn)` returns for the source contact of `repFan0`. -/
def pFan : ContactPayload :=
  { name := "al", clientTag := some "t", memberships := [defaultM, mG1] }

/-- Replica of the deletion-pollution example: one contact tagged `a` and
one still-untagged group. -/
def repPol : Replica :=
  { contacts := [{ rn := "p0", tag := some "a", name := "alice", updated := 0,
                   memberships := [defaultM] }],
    groups := [{ rn := "contactGroups/u1", tag := none, name := "Pals", updated := 0 }] }

/-- The one-replica world of the deletion-pollution example. -/
def conPol : List Replica := [repPol]

/-- Does an `Op` write the watermark? -/
def isSaveOp : Op → Bool
  | Op.save _ => true
  | _ => false

/-- Source replica of the addition example: a single untagged contact. -/
def repAdd0 : Replica :=
  { contacts := [{ rn := "a0", tag := none, name := "al", updated := 9,
                   memberships := [defaultM] }],
    groups := [] }

/-- Destination replica of the addition example: empty. -/
def repAdd1 : Replica := { contacts := [], groups := [] }

/-- Initial addition-phase state of the addition example. -/
def stAdd0 : CSt :=
  { con := [repAdd0, repAdd1], used := [], supply := ["t1"], added := [] }

/-- The state the contact addition phase reaches on the addition example. -/
def stAdd1 : CSt := ((contactAdditionPhase 7 stAdd0).toOption).getD stAdd0

/-- A replica with two contacts sharing the name `bob`. -/
def repDup : Replica :=
  { contacts := [{ rn := "r1", tag := none, name := "bob", updated := 0, memberships := [] },
                 { rn := "r2", tag := none, name := "bob", updated := 0, memberships := [] }],
    groups := [] }

/-- A replica with no contacts at all. -/
def repEmpty : Replica := { contacts := [], groups := [] }

/-- Source replica of the group addition example: one untagged group. -/
def repGAdd0 : Replica :=
  { contacts := [],
    groups := [{ rn := "contactGroups/u1", tag := none, name := "Pals", updated := 0 }] }

/-- Initial group-addition-phase state of the group addition example. -/
def stGAdd0 : CSt :=
  { con := [repGAdd0, repEmpty], used := [], supply := ["g1"], added := [] }

/-- The state the group addition phase reaches on the group addition
example. -/
def stGAdd1 : CSt := ((groupAdditionPhase 4 stGAdd0).toOption).getD stGAdd0

/-! ### Notions used to state and prove the addition-propagation claim -/

/-- The payload view of a stored contact record. -/
def payloadOfC (c : ContactRec) : ContactPayload :=
  { name := c.name, clientTag := c.tag, memberships := c.memberships }

/-- How many contacts of a replica bear the tag `t`. -/
def tagCountC (rep : Replica) (t : Tag) : Nat :=
  rep.contacts.countP (fun c => c.tag == some t)

/-- How many groups of a replica bear the tag `t`. -/
def tagCountG (rep : Replica) (t : Tag) : Nat :=
  rep.groups.countP (fun g => g.tag == some t)

/-- The groups of account `j` in a phase state (empty when out of range). -/
def groupsAt (s : CSt) (j : Nat) : List GroupRec :=
  ((s.con[j]?).map Replica.groups).getD []

/-- The contact `d` is stored in account `j` of the phase state. -/
def memAtC (s : CSt) (j : Nat) (d : ContactRec) : Prop :=
  ∃ rep, s.con[j]? = some rep ∧ d ∈ rep.contacts

/-- The group `d` is stored in account `j` of the phase state. -/
def memAtG (s : CSt) (j : Nat) (d : GroupRec) : Prop :=
  ∃ rep, s.con[j]? = some rep ∧ d ∈ rep.groups

/-- Every non-null contact tag of the state is registered in the used set
(`all_sync_tags` holds all contact tags before the contact addition phase,
sync.py lines 333-336). -/
def conTagsOk (s : CSt) : Prop :=
  ∀ rep ∈ s.con, ∀ c ∈ rep.contacts, ∀ t, c.tag = some t → t ∈ s.used

/-- Every non-null group tag of the state is a pre-existing tag of `base`
or registered in the used set. -/
def grpTagCovered (base : List Tag) (s : CSt) : Prop :=
  ∀ rep ∈ s.con, ∀ g ∈ rep.groups, ∀ t, g.tag = some t → t ∈ base ∨ t ∈ s.used

/-- The allocator supply avoids the pre-existing tags of `base` (the
spec's assumption that a fresh random tag does not collide with a tag
already stored remotely). -/
def supplyFreshG (base : List Tag) (s : CSt) : Prop :=
  ∀ t ∈ s.supply, ¬ t ∈ base

/-- Contact resource names are unique within each account (accounts cache
their records in a dict keyed by resource name). -/
def rnsNodupC (s : CSt) : Prop :=
  ∀ rep ∈ s.con, (rep.contacts.map (fun c => c.rn)).Nodup

/-- Group resource names are unique within each account. -/
def rnsNodupG (s : CSt) : Prop :=
  ∀ rep ∈ s.con, (rep.groups.map (fun g => g.rn)).Nodup

/-- Every resource name of `l` names an untagged contact of account `i`. -/
def targetsAvailC (s : CSt) (i : Nat) (l : List RN) : Prop :=
  ∀ rn ∈ l, ∃ c0, memAtC s i c0 ∧ c0.rn = rn ∧ c0.tag = none

/-- Every resource name of `l` names an untagged group of account `i`. -/
def targetsAvailG (s : CSt) (i : Nat) (l : List RN) : Prop :=
  ∀ rn ∈ l, ∃ g0, memAtG s i g0 ∧ g0.rn = rn ∧ g0.tag = none

/-- Established propagation property for a contact: every account other
than `i` holds exactly one contact bearing `t`, and that contact's payload
is the addition-phase translation of `cp` for that account. -/
def estPropC (gsI : List GroupRec) (gs : Nat → List GroupRec) (i : Nat)
    (cp : ContactPayload) (t : Tag) (s : CSt) : Prop :=
  ∀ j, j < s.con.length → j ≠ i →
    ∃ repJ, s.con[j]? = some repJ ∧ tagCountC repJ t = 1 ∧
      ∀ d ∈ repJ.contacts, d.tag = some t →
        addPayloadForG gsI (gs j) cp = Except.ok (payloadOfC d)

/-- Established propagation property for a group: every account other than
`i` holds exactly one group bearing `t`, and it carries the source group's
name. -/
def estPropG (i : Nat) (nm : String) (t : Tag) (s : CSt) : Prop :=
  ∀ j, j < s.con.length → j ≠ i →
    ∃ repJ, s.con[j]? = some repJ ∧ tagCountG repJ t = 1 ∧
      ∀ d ∈ repJ.groups, d.tag = some t → d.name = nm

/-- Equality on `Except` values is decidable when it is on both sides. -/
instance {ε α : Type _} [DecidableEq ε] [DecidableEq α] : DecidableEq (Except ε α) :=
  fun a b =>
    match a, b with
    | Except.error e, Except.error f =>
      if h : e = f then isTrue (by rw [h]) else isFalse (fun hh => h (by injection hh))
    | Except.error _, Except.ok _ => isFalse (fun hh => Except.noConfusion hh)
    | Except.ok _, Except.error _ => isFalse (fun hh => Except.noConfusion hh)
    | Except.ok x, Except.ok y =>
      if h : x = y then isTrue (by rw [h]) else isFalse (fun hh => h (by injection hh))

/-! ### Claim theorems -/

/-- Membership in an accumulating append loop. -/
theorem mem_catMap {f : α → List β} {l : List α} {init : List β} {b : β} :
    b ∈ catMap f l init ↔ b ∈ init ∨ ∃ x, x ∈ l ∧ b ∈ f x := by
  induction l generalizing init with
  | nil => simp [catMap]
  | cons a l ih =>
    have h : catMap f (a :: l) init = catMap f l (init ++ f a) := rfl
    rw [h, ih]
    simp only [List.mem_append, List.mem_cons]
    constructor
    · rintro ((h0 | h1) | ⟨x, hx, hb⟩)
      · exact Or.inl h0
      · exact Or.inr ⟨a, Or.inl rfl, h1⟩
      · exact Or.inr ⟨x, Or.inr hx, hb⟩
    · rintro (h0 | ⟨x, (rfl | hx), hb⟩)
      · exact Or.inl (Or.inl h0)
      · exact Or.inl (Or.inr hb)
      · exact Or.inr ⟨x, hx, hb⟩

/-- Membership in the group-phase global tag set is exactly membership in
some replica's group tag set. -/
theorem mem_groupGlobal {con : List Replica} {t : Tag} :
    t ∈ groupGlobal con ↔ ∃ rep, rep ∈ con ∧ t ∈ groupTagsOf rep := by
  unfold groupGlobal
  rw [mem_catMap]
  simp

/-- Membership in the contact-phase global tag set: a replica's contact tag
or an element of the incoming `all_sync_tags` set. -/
theorem mem_contactGlobal {allSync : List Tag} {con : List Replica} {t : Tag} :
    t ∈ contactGlobal allSync con ↔ t ∈ allSync ∨ ∃ rep, rep ∈ con ∧ t ∈ contactTagsOf rep := by
  unfold contactGlobal
  rw [mem_catMap]

/-- Membership in the group-phase `todel` set. -/
theorem mem_groupTodel {con : List Replica} {t : Tag} :
    t ∈ groupTodel con ↔ ∃ rep, rep ∈ con ∧ t ∈ groupGlobal con ∧ ¬ t ∈ groupTagsOf rep := by
  unfold groupTodel
  rw [mem_catMap]
  simp [List.mem_filter]

/-- Membership in the contact-phase `todel` set. -/
theorem mem_contactTodel {allSync : List Tag} {con : List Replica} {t : Tag} :
    t ∈ contactTodel allSync con ↔
      ∃ rep, rep ∈ con ∧ t ∈ contactGlobal allSync con ∧ ¬ t ∈ contactTagsOf rep := by
  unfold contactTodel
  rw [mem_catMap]
  simp [List.mem_filter]

/-- Membership in the delete-call list of a deletion phase. -/
theorem mem_delCallsFor {n : Nat} {todel : List Tag} {dc : DelCall} :
    dc ∈ delCallsFor n todel ↔ dc.acc < n ∧ dc.tag ∈ todel := by
  unfold delCallsFor
  by_cases h : todel.isEmpty
  · rw [List.isEmpty_iff] at h
    subst h
    simp
  · rw [if_neg (by simpa using h)]
    rw [mem_catMap]
    simp only [List.mem_range, List.mem_map, List.mem_nil_iff, false_or]
    constructor
    · rintro ⟨j, hj, t, ht, rfl⟩
      exact ⟨hj, ht⟩
    · rintro ⟨hj, ht⟩
      exact ⟨dc.acc, hj, dc.tag, ht, rfl⟩

/-- Claim C1 (code bug): in the contact update fan-out, when the source
contact has a non-default group membership, the Python loop variable `tag`
of `for tag in groupTags` shadows the contact's tag, so the single update
pushed to the other replica is keyed by the group's sync tag `g` and not by
the contact's tag `t` — refuting that every `other.update(x, payload)` call
has `x = t`. -/
theorem claim1_update_keyed_by_group_tag :
    ((updateFanOutC conFan 0 (some "t") pFan).2.map (fun u => u.key) = [some "g"]) ∧
    (some "g" : Option Tag) ≠ some "t" := by
  constructor
  · rfl
  · decide

/-- Claim C2, counterexample: on a world with one replica holding a contact
tagged `a` and one untagged group, the pass allocates the group tag `g1`
during the group addition phase, and the contact deletion phase then
issues a delete-by-tag call for `g1` — even though the claim's global set
(the union of the replicas' contact tag sets, here just `a`) makes every
per-replica missing set empty, so the claim predicts no delete call at
all. -/
theorem claim2_counterexample :
    (Op.delC 0 "g1" ∈ (runNormalPass 20 10 ["g1"] conPol).2) ∧
    (∃ stG, groupAdditionPhase 20
        { con := conPol, used := [], supply := ["g1"], added := [] } = Except.ok stG ∧
      stG.used = ["g1"] ∧ stG.con.map contactTagsOf = [["a"]] ∧
      contactTodel [] stG.con = []) := by
  constructor
  · decide
  · exact ⟨_, rfl, rfl, rfl, rfl⟩

/-- Claim C2, amended: for the GROUP deletion phase the claim holds as
stated — the delete calls are exactly one per replica for each tag some
replica is missing from the global set, and the global set is exactly the
union of the replicas' group tag sets.  For the CONTACT deletion phase the
global set additionally contains every tag `new_tag` allocated earlier in
the pass (the tags of groups added in the group addition phase land in the
process-wide `all_sync_tags` that the contact phase diffs against), so
delete calls can also be issued for tags no replica's contact tag set ever
held. -/
theorem claim2_amended :
    (∀ con (dc : DelCall), dc ∈ groupDeletionCalls con ↔
      (dc.acc < con.length ∧
        ∃ rep, rep ∈ con ∧ dc.tag ∈ groupGlobal con ∧ ¬ dc.tag ∈ groupTagsOf rep)) ∧
    (∀ con (t : Tag), t ∈ groupGlobal con ↔ ∃ rep, rep ∈ con ∧ t ∈ groupTagsOf rep) ∧
    (∀ allSync con (dc : DelCall), dc ∈ contactDeletionCalls allSync con ↔
      (dc.acc < con.length ∧
        ∃ rep, rep ∈ con ∧
          (dc.tag ∈ allSync ∨ ∃ rep2, rep2 ∈ con ∧ dc.tag ∈ contactTagsOf rep2) ∧
          ¬ dc.tag ∈ contactTagsOf rep)) := by
  refine ⟨fun con dc => ?_, fun con t => mem_groupGlobal, fun allSync con dc => ?_⟩
  · unfold groupDeletionCalls
    rw [mem_delCallsFor, mem_groupTodel]
  · unfold contactDeletionCalls
    rw [mem_delCallsFor, mem_contactTodel]
    constructor
    · rintro ⟨hn, rep, hrep, hg, hnot⟩
      exact ⟨hn, rep, hrep, mem_contactGlobal.mp hg, hnot⟩
    · rintro ⟨hn, rep, hrep, hg, hnot⟩
      exact ⟨hn, rep, hrep, mem_contactGlobal.mpr hg, hnot⟩

/-- Concrete consequence of the amended C2: the delete call for the
group-phase-allocated tag `g1` is issued by the contact deletion phase of
the pollution example. -/
theorem claim2_witness :
    DelCall.mk 0 "g1" ∈ contactDeletionCalls ["g1"] conPol :=
  (claim2_amended.2.2 ["g1"] conPol (DelCall.mk 0 "g1")).mpr
    ⟨by decide, repPol, by decide, Or.inl (by decide), by decide⟩

/-- Claim C3 (code bug): a group membership whose tag has no mapping in the
target replica is dropped without error by the UPDATE-phase translation,
but the ADDITION-phase translation has no `None` check and aborts (Python:
`remove_prefix(None, ...)` raises), contradicting the claim that both
phases drop it and complete without error. -/
theorem claim3_addition_translation_aborts :
    (addPayloadForG repFan0.groups [] pFan = Except.error ()) ∧
    (updPayloadFor repFan0.groups [] pFan =
      { name := "al", clientTag := some "t", memberships := [defaultM] }) := by
  constructor
  · rfl
  · rfl

/-- The Python `max` fold returns its seed or a list element. -/
theorem foldMax_mem (l : List Cand) : ∀ (b : Cand),
    l.foldl (fun p x => if p.u < x.u then x else p) b = b ∨
    l.foldl (fun p x => if p.u < x.u then x else p) b ∈ l := by
  induction l with
  | nil => intro b; exact Or.inl rfl
  | cons x l ih =>
    intro b
    rw [List.foldl_cons]
    rcases ih (if b.u < x.u then x else b) with h | h
    · rw [h]
      by_cases hc : b.u < x.u
      · rw [if_pos hc]; exact Or.inr (List.mem_cons_self x l)
      · rw [if_neg hc]; exact Or.inl rfl
    · exact Or.inr (List.mem_cons_of_mem x h)

/-- The Python `max` fold result is at least the seed. -/
theorem foldMax_init_le (l : List Cand) : ∀ (b : Cand),
    b.u ≤ (l.foldl (fun p x => if p.u < x.u then x else p) b).u := by
  induction l with
  | nil => intro b; exact le_refl _
  | cons x l ih =>
    intro b
    rw [List.foldl_cons]
    refine le_trans ?_ (ih (if b.u < x.u then x else b))
    by_cases hc : b.u < x.u
    · rw [if_pos hc]; exact le_of_lt hc
    · rw [if_neg hc]

/-- The Python `max` fold result is at least every list element. -/
theorem foldMax_mem_le (l : List Cand) : ∀ (b c : Cand), c ∈ l →
    c.u ≤ (l.foldl (fun p x => if p.u < x.u then x else p) b).u := by
  induction l with
  | nil => intro b c hc; exact absurd hc (List.not_mem_nil c)
  | cons x l ih =>
    intro b c hc
    rw [List.foldl_cons]
    rcases List.mem_cons.mp hc with rfl | hm
    · refine le_trans ?_ (foldMax_init_le l (if b.u < c.u then c else b))
      by_cases hc2 : b.u < c.u
      · rw [if_pos hc2]
      · rw [if_neg hc2]; exact le_of_not_lt hc2
    · exact ih (if b.u < x.u then x else b) c hm

/-- `pickNewest` returns a member of maximal update time. -/
theorem pickNewest_spec {l : List Cand} {m : Cand} (h : pickNewest l = some m) :
    m ∈ l ∧ ∀ c ∈ l, c.u ≤ m.u := by
  cases l with
  | nil => exact absurd h (by simp [pickNewest])
  | cons c rest =>
    have hm : rest.foldl (fun p x => if p.u < x.u then x else p) c = m := by
      simpa [pickNewest] using h
    constructor
    · rcases foldMax_mem rest c with h1 | h1
      · rw [hm] at h1; rw [← h1]; exact List.mem_cons_self m rest
      · rw [hm] at h1; exact List.mem_cons_of_mem c h1
    · intro d hd
      rcases List.mem_cons.mp hd with rfl | h2
      · rw [← hm]; exact foldMax_init_le rest d
      · rw [← hm]; exact foldMax_mem_le rest c d h2

/-- Every contact update-phase candidate was updated strictly after the
watermark, has its pair outside `added`, and names a valid account. -/
theorem mem_candsOf {lastupdate : Time} {added : List (Nat × RN)} {con : List Replica}
    {c : Cand} (h : c ∈ candsOf lastupdate added con) :
    lastupdate < c.u ∧ ¬ (c.acc, c.rn) ∈ added ∧ c.acc < con.length := by
  unfold candsOf at h
  rcases mem_catMap.mp h with h0 | ⟨i, hi, hin⟩
  · exact absurd h0 (List.not_mem_nil c)
  · rw [List.mem_range] at hi
    cases hcon : con[i]? with
    | none => rw [hcon] at hin; exact absurd hin (List.not_mem_nil c)
    | some rep =>
      rw [hcon] at hin
      rcases List.mem_map.mp hin with ⟨v, hv, rfl⟩
      rcases List.mem_filter.mp hv with ⟨_, hcond⟩
      rw [Bool.and_eq_true] at hcond
      rcases hcond with ⟨h1, h2⟩
      refine ⟨of_decide_eq_true h1, ?_, hi⟩
      intro hmem
      simp only [Bool.not_eq_true'] at h2
      simp only [List.contains_eq_any_beq] at h2
      have : added.any (fun x => (i, v.rn) == x) = true := by
        rw [List.any_eq_true]
        exact ⟨(i, v.rn), hmem, by simp⟩
      rw [this] at h2
      exact absurd h2 (by decide)

/-- Every group update-phase candidate was updated strictly after the
watermark, has its pair outside `added`, and names a valid account. -/
theorem mem_groupCandsOf {lastupdate : Time} {added : List (Nat × RN)} {con : List Replica}
    {c : Cand} (h : c ∈ groupCandsOf lastupdate added con) :
    lastupdate < c.u ∧ ¬ (c.acc, c.rn) ∈ added ∧ c.acc < con.length := by
  unfold groupCandsOf at h
  rcases mem_catMap.mp h with h0 | ⟨i, hi, hin⟩
  · exact absurd h0 (List.not_mem_nil c)
  · rw [List.mem_range] at hi
    cases hcon : con[i]? with
    | none => rw [hcon] at hin; exact absurd hin (List.not_mem_nil c)
    | some rep =>
      rw [hcon] at hin
      rcases List.mem_map.mp hin with ⟨v, hv, rfl⟩
      rcases List.mem_filter.mp hv with ⟨_, hcond⟩
      rw [Bool.and_eq_true] at hcond
      rcases hcond with ⟨h1, h2⟩
      refine ⟨of_decide_eq_true h1, ?_, hi⟩
      intro hmem
      simp only [Bool.not_eq_true'] at h2
      simp only [List.contains_eq_any_beq] at h2
      have : added.any (fun x => (i, v.rn) == x) = true := by
        rw [List.any_eq_true]
        exact ⟨(i, v.rn), hmem, by simp⟩
      rw [this] at h2
      exact absurd h2 (by decide)

/-- A bucket member is a candidate with the bucket's tag. -/
theorem mem_t2aruAt {cs : List Cand} {k : Option Tag} {c : Cand}
    (h : c ∈ t2aruAt cs k) : c ∈ cs ∧ c.tag = k := by
  rcases List.mem_filter.mp h with ⟨h1, h2⟩
  exact ⟨h1, by simpa using h2⟩

/-- Claim C5: in both update phases, every candidate of a tag bucket was
updated strictly after the persisted watermark, and the entry `pickNewest`
selects as source of truth is a bucket member of maximal update time. -/
theorem claim5_newest_selection :
    ∀ (lastupdate : Time) (added : List (Nat × RN)) (con : List Replica) (k : Option Tag),
      (∀ c ∈ t2aruAt (candsOf lastupdate added con) k, lastupdate < c.u) ∧
      (∀ m, pickNewest (t2aruAt (candsOf lastupdate added con) k) = some m →
        m ∈ t2aruAt (candsOf lastupdate added con) k ∧
        ∀ c ∈ t2aruAt (candsOf lastupdate added con) k, c.u ≤ m.u) ∧
      (∀ c ∈ t2aruAt (groupCandsOf lastupdate added con) k, lastupdate < c.u) ∧
      (∀ m, pickNewest (t2aruAt (groupCandsOf lastupdate added con) k) = some m →
        m ∈ t2aruAt (groupCandsOf lastupdate added con) k ∧
        ∀ c ∈ t2aruAt (groupCandsOf lastupdate added con) k, c.u ≤ m.u) := by
  intro lastupdate added con k
  refine ⟨?_, ?_, ?_, ?_⟩
  · intro c hc
    exact (mem_candsOf (mem_t2aruAt hc).1).1
  · intro m hm
    exact pickNewest_spec hm
  · intro c hc
    exact (mem_groupCandsOf (mem_t2aruAt hc).1).1
  · intro m hm
    exact pickNewest_spec hm

/-- Concrete run of C5: in the two-replica fan-out world the source of
truth picked for tag `t` is the copy of account 0 updated at time 5, the
maximum of the bucket. -/
theorem claim5_witness :
    ({ tag := some "t", acc := 0, rn := "c0", u := 5 } : Cand) ∈
      t2aruAt (candsOf 0 [] conFan) (some "t") ∧
    ∀ c ∈ t2aruAt (candsOf 0 [] conFan) (some "t"), c.u ≤ 5 :=
  (claim5_newest_selection 0 [] conFan (some "t")).2.1
    { tag := some "t", acc := 0, rn := "c0", u := 5 } (by decide)

/-- Claim C4, counterexample: the update fan-out strips the fetched
payload's non-default memberships in place (sync.py line 483), so after the
fan-out the caller's `contact` object differs from what `get(rn)`
returned. -/
theorem claim4_counterexample :
    (updateFanOutC conFan 0 (some "t") pFan).1 ≠ pFan := by
  decide

/-- A property preserved by every step of a fold holds of its result. -/
theorem foldl_pres {σ α : Type _} {P : σ → Prop} (f : σ → α → σ)
    (h : ∀ s a, P s → P (f s a)) : ∀ (l : List α) (s : σ), P s → P (l.foldl f s) := by
  intro l
  induction l with
  | nil => intro s hs; exact hs
  | cons a l ih => intro s hs; rw [List.foldl_cons]; exact ih (f s a) (h s a hs)

/-- The group update phase never writes the watermark. -/
theorem noSave_runGroupUpdates (lu : Time) (added : List (Nat × RN)) (con : List Replica) :
    ∀ o ∈ (runGroupUpdates lu added con).2, isSaveOp o = false := by
  unfold runGroupUpdates
  refine foldl_pres (P := fun pr : List Replica × List Op => ∀ o ∈ pr.2, isSaveOp o = false)
    _ ?_ _ _ (by intro o ho; exact absurd ho (List.not_mem_nil o))
  intro pr k hpr
  cases pickNewest (t2aruAt (groupCandsOf lu added con) k) with
  | none => exact hpr
  | some m =>
    dsimp only
    cases pr.1[m.acc]? with
    | none => exact hpr
    | some acc =>
      dsimp only
      cases getGroup acc m.rn with
      | none => exact hpr
      | some p =>
        dsimp only
        refine foldl_pres
          (P := fun pr : List Replica × List Op => ∀ o ∈ pr.2, isSaveOp o = false)
          _ ?_ _ _ hpr
        intro pr2 j hpr2
        by_cases hj : j = m.acc
        · rw [if_pos hj]; exact hpr2
        · rw [if_neg hj]
          cases pr2.1[j]? with
          | none => exact hpr2
          | some other =>
            intro o ho
            rcases List.mem_append.mp ho with h1 | h1
            · exact hpr2 o h1
            · rw [List.mem_singleton.mp h1]; rfl

/-- The contact update phase never writes the watermark. -/
theorem noSave_runContactUpdates (lu : Time) (added : List (Nat × RN)) (con : List Replica) :
    ∀ o ∈ (runContactUpdates lu added con).2, isSaveOp o = false := by
  unfold runContactUpdates
  refine foldl_pres (P := fun pr : List Replica × List Op => ∀ o ∈ pr.2, isSaveOp o = false)
    _ ?_ _ _ (by intro o ho; exact absurd ho (List.not_mem_nil o))
  intro pr k hpr
  cases pickNewest (t2aruAt (candsOf lu added con) k) with
  | none => exact hpr
  | some m =>
    dsimp only
    cases pr.1[m.acc]? with
    | none => exact hpr
    | some acc =>
      dsimp only
      cases getContact acc m.rn with
      | none => exact hpr
      | some contact =>
        dsimp only
        intro o ho
        rcases List.mem_append.mp ho with h1 | h1
        · exact hpr o h1
        · rcases List.mem_map.mp h1 with ⟨u, _, rfl⟩
          rfl

/-- Group delete calls are not watermark writes. -/
theorem filter_isSave_delG (l : List DelCall) :
    ((l.map (fun c => Op.delG c.acc c.tag)).filter isSaveOp) = [] := by
  rw [List.filter_eq_nil_iff]
  intro o ho
  rcases List.mem_map.mp ho with ⟨c, _, rfl⟩
  simp [isSaveOp]

/-- Contact delete calls are not watermark writes. -/
theorem filter_isSave_delC (l : List DelCall) :
    ((l.map (fun c => Op.delC c.acc c.tag)).filter isSaveOp) = [] := by
  rw [List.filter_eq_nil_iff]
  intro o ho
  rcases List.mem_map.mp ho with ⟨c, _, rfl⟩
  simp [isSaveOp]

/-- The watermark writes of a whole pass: none when the pass aborts, and
exactly one — `now + 1` — when every phase completed. -/
theorem runNormalPass_saves (now lu : Time) (sup : List Tag) (con : List Replica) :
    (runNormalPass now lu sup con).2.filter isSaveOp =
      (match (runNormalPass now lu sup con).1 with
       | Except.error _ => []
       | Except.ok _ => [Op.save (now + 1)]) := by
  unfold runNormalPass
  split
  · rfl
  · split
    · exact filter_isSave_delG (groupDeletionCalls con)
    · rename_i stG _
      split
      · rw [List.filter_append, List.filter_append]
        rw [filter_isSave_delG, filter_isSave_delC]
        rw [List.filter_eq_nil_iff.mpr (by
          intro o ho
          rw [noSave_runGroupUpdates lu stG.added stG.con o ho]
          exact Bool.false_ne_true)]
        rfl
      · rename_i stC _
        rw [List.filter_append, List.filter_append, List.filter_append,
          List.filter_append]
        rw [filter_isSave_delG, filter_isSave_delC]
        rw [List.filter_eq_nil_iff.mpr (by
          intro o ho
          rw [noSave_runGroupUpdates lu stG.added stG.con o ho]
          exact Bool.false_ne_true)]
        rw [List.filter_eq_nil_iff.mpr (by
          intro o ho
          rw [noSave_runContactUpdates lu stC.added stC.con o ho]
          exact Bool.false_ne_true)]
        rfl

/-- Claim C7: the watermark is written only when every phase of the pass
has completed — an aborted pass performs no save at all — and the value
written is the completion time plus a positive one-second safety margin. -/
theorem claim7_watermark_only_after_success :
    ∀ (now lastupdate : Time) (supply : List Tag) (con : List Replica),
      (∀ e ops, runNormalPass now lastupdate supply con = (Except.error e, ops) →
        ops.filter isSaveOp = []) ∧
      (∀ con2 ops, runNormalPass now lastupdate supply con = (Except.ok con2, ops) →
        ops.filter isSaveOp = [Op.save (now + 1)] ∧ now < now + 1) := by
  intro now lu sup con
  have hc := runNormalPass_saves now lu sup con
  constructor
  · intro e ops h
    rw [h] at hc
    exact hc
  · intro con2 ops h
    rw [h] at hc
    exact ⟨hc, Nat.lt_succ_self now⟩

/-- Concrete runs of C7: a pass aborted by the bootstrap check writes no
watermark, and a completed pass on the pollution world writes exactly the
save of `now + 1`. -/
theorem claim7_witness :
    ((runNormalPass 1 0 [] [repEmpty]).2.filter isSaveOp = []) ∧
    ((runNormalPass 20 10 ["g1"] conPol).2.filter isSaveOp = [Op.save 21] ∧ (20:Nat) < 21) :=
  ⟨(claim7_watermark_only_after_success 1 0 [] [repEmpty]).1 PassErr.exit2
      (runNormalPass 1 0 [] [repEmpty]).2 rfl,
   (claim7_watermark_only_after_success 20 10 ["g1"] conPol).2
      (runNormalPass 20 10 ["g1"] conPol).1.toOption.iget
      (runNormalPass 20 10 ["g1"] conPol).2 rfl⟩

/-- Claim C8: every (account, rn) pair recorded in `added` by an addition
phase — the processed source records as well as the records created on the
destinations — is excluded from the same pass's update-phase candidate
set, for contacts and for contact groups alike. -/
theorem claim8_added_excluded :
    (∀ (now : Time) (st0 st1 : CSt), contactAdditionPhase now st0 = Except.ok st1 →
      ∀ (lastupdate : Time) (p : Nat × RN), p ∈ st1.added →
        ∀ c ∈ candsOf lastupdate st1.added st1.con, ¬ (c.acc = p.1 ∧ c.rn = p.2)) ∧
    (∀ (now : Time) (st0 st1 : CSt), groupAdditionPhase now st0 = Except.ok st1 →
      ∀ (lastupdate : Time) (p : Nat × RN), p ∈ st1.added →
        ∀ c ∈ groupCandsOf lastupdate st1.added st1.con, ¬ (c.acc = p.1 ∧ c.rn = p.2)) := by
  constructor
  · intro now st0 st1 _ lu p hp c hc
    rintro ⟨h1, h2⟩
    rcases mem_candsOf hc with ⟨_, hnot, _⟩
    apply hnot
    rw [h1, h2]
    exact hp
  · intro now st0 st1 _ lu p hp c hc
    rintro ⟨h1, h2⟩
    rcases mem_groupCandsOf hc with ⟨_, hnot, _⟩
    apply hnot
    rw [h1, h2]
    exact hp

/-- Concrete run of C8: in the addition example the processed source pair
(account 0, rn `a0`) is excluded from the subsequent update candidates. -/
theorem claim8_witness :
    ∀ c ∈ candsOf 0 stAdd1.added stAdd1.con, ¬ (c.acc = 0 ∧ c.rn = "a0") :=
  claim8_added_excluded.1 7 stAdd0 stAdd1 rfl 0 (0, "a0") (by decide)

/-- A `dups` set that ends empty was empty to begin with. -/
theorem dupFold_mono : ∀ (l : List String) (p : List String × List String),
    (l.foldl dupStep p).2 = [] → p.2 = [] := by
  intro l
  induction l with
  | nil => intro p h; exact h
  | cons x l ih =>
    intro p h
    rw [List.foldl_cons] at h
    have h2 := ih (dupStep p x) h
    simp only [dupStep] at h2
    split at h2
    · split at h2
      · exact h2
      · exact absurd h2 (by simp)
    · exact h2

/-- An element already in the seen set forces a non-empty final `dups`. -/
theorem dupFold_seen : ∀ (l : List String) (p : List String × List String) (x : String),
    x ∈ l → p.1.contains x = true → (l.foldl dupStep p).2 ≠ [] := by
  intro l
  induction l with
  | nil => intro p x hx _ _; exact absurd hx (List.not_mem_nil x)
  | cons y l ih =>
    intro p x hx hseen h
    rw [List.foldl_cons] at h
    rcases List.mem_cons.mp hx with rfl | hx2
    · have hm := dupFold_mono l _ h
      simp only [dupStep, hseen, if_true] at hm
      split at hm
      · rename_i hcont
        rw [hm] at hcont
        exact absurd hcont (by simp)
      · exact absurd hm (by simp)
    · refine ih (dupStep p y) x hx2 ?_ h
      have hxp : x ∈ p.1 := by simpa using hseen
      simp only [dupStep]
      split
      · simpa using hxp
      · simp only []
        have : x ∈ p.1 ++ [y] := List.mem_append.mpr (Or.inl hxp)
        simpa using this

/-- A list whose `duplicates` fold ends with no duplicates has no repeated
element. -/
theorem dupFold_nodup : ∀ (l : List String) (p : List String × List String),
    (l.foldl dupStep p).2 = [] → l.Nodup := by
  intro l
  induction l with
  | nil => intro p _; exact List.nodup_nil
  | cons y l ih =>
    intro p h
    rw [List.foldl_cons] at h
    refine List.nodup_cons.mpr ⟨?_, ih (dupStep p y) h⟩
    intro hy
    refine dupFold_seen l (dupStep p y) y hy ?_ h
    simp only [dupStep]
    split
    · rename_i hc; exact hc
    · simp

/-- Claim C9: in init mode, an account whose contact list repeats a name
makes the run exit with code 1 before a single write is issued to any
replica. -/
theorem claim9_init_duplicates_abort :
    ∀ (supply : List Tag) (con : List Replica) (rep : Replica), rep ∈ con →
      ¬ (rep.contacts.map (fun c => c.name)).Nodup →
      runInitMode supply con = Except.ok (1, []) := by
  intro sup con rep hmem hdup
  have hne : ¬ duplicatesL (rep.contacts.map (fun c => c.name)) = [] := by
    intro h0
    exact hdup (dupFold_nodup _ ([], []) h0)
  have hcond : con.any
      (fun acc => !((duplicatesL (acc.contacts.map (fun c => c.name))).isEmpty)) = true := by
    rw [List.any_eq_true]
    refine ⟨rep, hmem, ?_⟩
    simp only [Bool.not_eq_true']
    rw [List.isEmpty_eq_false]
    exact hne
  unfold runInitMode
  rw [if_pos hcond]

/-- Concrete run of C9: the duplicate-name account aborts init mode with
exit code 1 and an empty write list. -/
theorem claim9_witness :
    runInitMode ["x"] [repDup] = Except.ok (1, []) :=
  claim9_init_duplicates_abort ["x"] [repDup] repDup (by decide) (by decide)

/-- Claim C10: in normal mode an account with an empty contact list makes
the vacuous all-tags-are-None bootstrap test succeed, so the run aborts
with exit code 2 before any sync phase has issued a write. -/
theorem claim10_empty_account_exit2 :
    ∀ (now lastupdate : Time) (supply : List Tag) (con : List Replica) (acc : Replica),
      acc ∈ con → acc.contacts = [] →
      runNormalPass now lastupdate supply con = (Except.error PassErr.exit2, []) := by
  intro now lu sup con acc hmem hempty
  have hb : bootstrapFail con = true := by
    rw [bootstrapFail, List.any_eq_true]
    exact ⟨acc, hmem, by rw [hempty]; rfl⟩
  unfold runNormalPass
  rw [if_pos hb]

/-- Concrete run of C10: a world containing an account with no contacts
aborts with exit 2 and no writes. -/
theorem claim10_witness :
    runNormalPass 1 0 [] [repFan0, repEmpty] = (Except.error PassErr.exit2, []) :=
  claim10_empty_account_exit2 1 0 [] [repFan0, repEmpty] repEmpty (by decide) rfl

/-! ### Lemmas about the allocator, the store operations and counting -/

/-- The tag `new_tag` draws is outside the used set, comes from the supply,
and the remaining supply is part of the original one. -/
theorem popFresh_spec : ∀ (sup used : List Tag) (t : Tag) (sup' : List Tag),
    popFresh sup used = some (t, sup') →
    ¬ t ∈ used ∧ t ∈ sup ∧ ∀ x ∈ sup', x ∈ sup := by
  intro sup
  induction sup with
  | nil => intro used t sup' h; exact absurd h (by simp [popFresh])
  | cons a sup ih =>
    intro used t sup' h
    simp only [popFresh] at h
    split at h
    · rcases ih used t sup' h with ⟨h1, h2, h3⟩
      exact ⟨h1, List.mem_cons_of_mem a h2, fun x hx => List.mem_cons_of_mem a (h3 x hx)⟩
    · rename_i hmem
      injection h with h'
      obtain ⟨rfl, rfl⟩ := Prod.mk.injEq a sup t sup' ▸ h'
      exact ⟨hmem, List.mem_cons_self _ _, fun x hx => List.mem_cons_of_mem _ hx⟩

/-- In a list whose projections are distinct, two members with the same
projection are the same member. -/
theorem nodup_proj_inj {α β : Type _} (f : α → β) :
    ∀ (l : List α), (l.map f).Nodup → ∀ x ∈ l, ∀ y ∈ l, f x = f y → x = y := by
  intro l
  induction l with
  | nil => intro _ x hx; exact absurd hx (List.not_mem_nil x)
  | cons a l ih =>
    intro hnd x hx y hy hf
    rw [List.map_cons, List.nodup_cons] at hnd
    rcases List.mem_cons.mp hx with rfl | hx2 <;> rcases List.mem_cons.mp hy with rfl | hy2
    · rfl
    · exact absurd (hf ▸ List.mem_map_of_mem f hy2) hnd.1
    · exact absurd (hf ▸ List.mem_map_of_mem f hx2) hnd.1
    · exact ih hnd.2 x hx2 y hy2 hf

/-- Length of the concatenation underlying a fresh contact resource name. -/
theorem freshRnC_len (rep : Replica) :
    (freshRnC rep).data.length
      = 1 + (rep.contacts.map (fun c => c.rn.data.length)).sum := by
  have key : ∀ (l : List ContactRec) (a : List Char),
      (l.foldl (fun acc c => acc ++ c.rn.data) a).length
        = a.length + (l.map (fun c => c.rn.data.length)).sum := by
    intro l
    induction l with
    | nil => intro a; simp
    | cons c l ih =>
      intro a
      rw [List.foldl_cons, ih]
      simp only [List.length_append, List.map_cons, List.sum_cons]
      omega
  simpa using key rep.contacts ['x']

/-- The fresh contact resource name differs from every stored one. -/
theorem freshRnC_fresh (rep : Replica) : ∀ c ∈ rep.contacts, ¬ c.rn = freshRnC rep := by
  intro c hc h
  have h1 := freshRnC_len rep
  have h2 : c.rn.data.length ≤ (rep.contacts.map (fun c => c.rn.data.length)).sum :=
    List.single_le_sum (fun x _ => Nat.zero_le x) _
      (List.mem_map_of_mem (fun c => c.rn.data.length) hc)
  rw [← h] at h1
  omega

/-- Length of the concatenation underlying a fresh group resource name. -/
theorem freshRnG_len (rep : Replica) :
    (freshRnG rep).data.length
      = 1 + (rep.groups.map (fun g => g.rn.data.length)).sum := by
  have key : ∀ (l : List GroupRec) (a : List Char),
      (l.foldl (fun acc g => acc ++ g.rn.data) a).length
        = a.length + (l.map (fun g => g.rn.data.length)).sum := by
    intro l
    induction l with
    | nil => intro a; simp
    | cons g l ih =>
      intro a
      rw [List.foldl_cons, ih]
      simp only [List.length_append, List.map_cons, List.sum_cons]
      omega
  simpa using key rep.groups ['x']

/-- The fresh group resource name differs from every stored one. -/
theorem freshRnG_fresh (rep : Replica) : ∀ g ∈ rep.groups, ¬ g.rn = freshRnG rep := by
  intro g hg h
  have h1 := freshRnG_len rep
  have h2 : g.rn.data.length ≤ (rep.groups.map (fun g => g.rn.data.length)).sum :=
    List.single_le_sum (fun x _ => Nat.zero_le x) _
      (List.mem_map_of_mem (fun g => g.rn.data.length) hg)
  rw [← h] at h1
  omega

/-- Retagging one contact keeps the resource-name list. -/
theorem retagC_rnsMap (l : List ContactRec) (rn : RN) (t : Tag) :
    ((l.map (fun c => if c.rn == rn then { c with tag := some t } else c)).map
        (fun c => c.rn)) = l.map (fun c => c.rn) := by
  rw [List.map_map]
  apply List.map_congr_left
  intro c _
  by_cases h : c.rn = rn
  · simp [h]
  · simp [h]

/-- A contact with a different resource name survives retagging untouched. -/
theorem retagC_mem_of_ne {l : List ContactRec} {rn : RN} {t : Tag} {d : ContactRec}
    (hd : d ∈ l) (hne : ¬ d.rn = rn) :
    d ∈ l.map (fun c => if c.rn == rn then { c with tag := some t } else c) := by
  refine List.mem_map.mpr ⟨d, hd, ?_⟩
  simp [hne]

/-- Everything stored after retagging is an old record or carries the new
tag. -/
theorem retagC_prov {l : List ContactRec} {rn : RN} {t : Tag} :
    ∀ d ∈ l.map (fun c => if c.rn == rn then { c with tag := some t } else c),
      d ∈ l ∨ d.tag = some t := by
  intro d hd
  rcases List.mem_map.mp hd with ⟨c, hc, rfl⟩
  by_cases h : c.rn = rn
  · right; simp [h]
  · left; simpa [h] using hc

/-- Looking the retagged record up by its resource name returns it with the
new tag (resource names are unique). -/
theorem retagC_find {rn : RN} {t : Tag} :
    ∀ {l : List ContactRec} {c : ContactRec},
      (l.map (fun c => c.rn)).Nodup → c ∈ l → c.rn = rn →
      (l.map (fun c => if c.rn == rn then { c with tag := some t } else c)).find?
        (fun d => d.rn == rn) = some { c with tag := some t } := by
  intro l
  induction l with
  | nil => intro c _ hc; exact absurd hc (List.not_mem_nil c)
  | cons a l ih =>
    intro c hN hc hrn
    rw [List.map_cons, List.nodup_cons] at hN
    rcases List.mem_cons.mp hc with rfl | hc2
    · have hb : (c.rn == rn) = true := by simp [hrn]
      rw [List.map_cons, List.find?_cons]
      simp [hb]
    · have ha : ¬ a.rn = rn := by
        intro he
        exact hN.1 (he ▸ hrn ▸ List.mem_map_of_mem (fun c => c.rn) hc2)
      have hb : (a.rn == rn) = false := by simp [ha]
      rw [List.map_cons, List.find?_cons]
      simp only [hb, Bool.false_eq_true, if_false]
      exact ih hN.2 hc2 hrn

/-- `get(rn)` after `update_tag(rn, t)` returns the record's payload with
the new tag attached. -/
theorem getContact_updateTagC {rep : Replica} {rn : RN} {t : Tag} {c : ContactRec}
    (hN : (rep.contacts.map (fun c => c.rn)).Nodup) (hc : c ∈ rep.contacts)
    (hrn : c.rn = rn) :
    getContact (updateTagC rep rn t) rn =
      some { name := c.name, clientTag := some t, memberships := c.memberships } := by
  unfold getContact updateTagC
  dsimp only
  rw [retagC_find hN hc hrn]
  rfl

/-- Retagging one group keeps the resource-name list. -/
theorem retagG_rnsMap (l : List GroupRec) (rn : RN) (t : Tag) :
    ((l.map (fun g => if g.rn == rn then { g with tag := some t } else g)).map
        (fun g => g.rn)) = l.map (fun g => g.rn) := by
  rw [List.map_map]
  apply List.map_congr_left
  intro g _
  by_cases h : g.rn = rn
  · simp [h]
  · simp [h]

/-- A group with a different resource name survives retagging untouched. -/
theorem retagG_mem_of_ne {l : List GroupRec} {rn : RN} {t : Tag} {d : GroupRec}
    (hd : d ∈ l) (hne : ¬ d.rn = rn) :
    d ∈ l.map (fun g => if g.rn == rn then { g with tag := some t } else g) := by
  refine List.mem_map.mpr ⟨d, hd, ?_⟩
  simp [hne]

/-- Everything stored after group retagging is an old record or carries the
new tag. -/
theorem retagG_prov {l : List GroupRec} {rn : RN} {t : Tag} :
    ∀ d ∈ l.map (fun g => if g.rn == rn then { g with tag := some t } else g),
      d ∈ l ∨ d.tag = some t := by
  intro d hd
  rcases List.mem_map.mp hd with ⟨g, hg, rfl⟩
  by_cases h : g.rn = rn
  · right; simp [h]
  · left; simpa [h] using hg

/-- Looking the retagged group up by its resource name returns it with the
new tag. -/
theorem retagG_find {rn : RN} {t : Tag} :
    ∀ {l : List GroupRec} {g : GroupRec},
      (l.map (fun g => g.rn)).Nodup → g ∈ l → g.rn = rn →
      (l.map (fun g => if g.rn == rn then { g with tag := some t } else g)).find?
        (fun d => d.rn == rn) = some { g with tag := some t } := by
  intro l
  induction l with
  | nil => intro g _ hg; exact absurd hg (List.not_mem_nil g)
  | cons a l ih =>
    intro g hN hg hrn
    rw [List.map_cons, List.nodup_cons] at hN
    rcases List.mem_cons.mp hg with rfl | hg2
    · have hb : (g.rn == rn) = true := by simp [hrn]
      rw [List.map_cons, List.find?_cons]
      simp [hb]
    · have ha : ¬ a.rn = rn := by
        intro he
        exact hN.1 (he ▸ hrn ▸ List.mem_map_of_mem (fun g => g.rn) hg2)
      have hb : (a.rn == rn) = false := by simp [ha]
      rw [List.map_cons, List.find?_cons]
      simp only [hb, Bool.false_eq_true, if_false]
      exact ih hN.2 hg2 hrn

/-- `get_contactGroup(rn)` after `update_contactGroup_tag(rn, t)` returns
the group's payload with the new tag in client data. -/
theorem getGroup_updateTagG {rep : Replica} {rn : RN} {t : Tag} {g : GroupRec}
    (hN : (rep.groups.map (fun g => g.rn)).Nodup) (hg : g ∈ rep.groups)
    (hrn : g.rn = rn) :
    getGroup (updateTagG rep rn t) rn = some { name := g.name, clientData := some t } := by
  unfold getGroup updateTagG
  dsimp only
  rw [retagG_find hN hg hrn]
  rfl

/-- Counting is unchanged by a map that leaves the predicate's value on
every member alone. -/
theorem countP_map_congr {α : Type _} {l : List α} {f : α → α} {p : α → Bool}
    (h : ∀ c ∈ l, p (f c) = p c) : (l.map f).countP p = l.countP p := by
  induction l with
  | nil => rfl
  | cons a l ih =>
    rw [List.map_cons, List.countP_cons, List.countP_cons,
      h a (List.mem_cons_self a l), ih (fun c hc => h c (List.mem_cons_of_mem a hc))]

/-- The successful addition-phase translation keeps name and client tag. -/
theorem addPayloadForG_fields {gsSrc gsDst : List GroupRec} {q p : ContactPayload}
    (h : addPayloadForG gsSrc gsDst q = Except.ok p) :
    p.name = q.name ∧ p.clientTag = q.clientTag := by
  simp only [addPayloadForG] at h
  split at h
  · injection h with h'
    rw [← h']
    exact ⟨rfl, rfl⟩
  · split at h
    · exact absurd h (by simp)
    · injection h with h'
      rw [← h']
      exact ⟨rfl, rfl⟩

/-- A property is carried along a successful fallible fold whose every step
preserves it. -/
theorem foldE_pres {σ α ε : Type _} {P : σ → Prop} (f : σ → α → Except ε σ)
    (h : ∀ s a s', f s a = Except.ok s' → P s → P s') :
    ∀ (l : List α) (s s' : σ), foldE f l s = Except.ok s' → P s → P s' := by
  intro l
  induction l with
  | nil =>
    intro s s' hf hp
    injection hf with h'
    rw [← h']
    exact hp
  | cons a l ih =>
    intro s s' hf hp
    simp only [foldE] at hf
    cases hstep : f s a with
    | error e => rw [hstep] at hf; exact absurd hf (by simp)
    | ok s1 =>
      rw [hstep] at hf
      exact ih s1 s' hf (h s a s1 hstep hp)

/-- An index with a stored value is in range. -/
theorem lt_of_getElem?_some {α : Type _} {l : List α} {j : Nat} {a : α}
    (h : l[j]? = some a) : j < l.length := by
  by_contra hc
  rw [List.getElem?_eq_none (Nat.le_of_not_lt hc)] at h
  exact Option.noConfusion h

/-- The replica resulting from a contact creation. -/
theorem addContact_snd (rep : Replica) (now : Time) (p : ContactPayload) :
    (addContact rep now p).2 = { rep with contacts := rep.contacts ++
      [{ rn := freshRnC rep, tag := p.clientTag, name := p.name, updated := now,
         memberships := p.memberships }] } := rfl

/-- The replica resulting from a group creation. -/
theorem addGroupR_snd (rep : Replica) (now : Time) (p : GroupPayload) :
    (addGroupR rep now p).2 = { rep with groups := rep.groups ++
      [{ rn := freshRnG rep, tag := p.clientData, name := p.name, updated := now }] } := rfl

/-- Full characterization of the contact addition fan-out over a list of
destination indices: skipped accounts are untouched, every visited account
other than the source gains exactly the translated copy, and the used set,
supply, account count and earlier `added` entries are unchanged. -/
theorem foldE_destC (i : Nat) (now : Time) (gsSrc : List GroupRec) (p0 : ContactPayload) :
    ∀ (L : List Nat), L.Nodup → ∀ (s s' : CSt),
      foldE (destStepC i now gsSrc p0) L s = Except.ok s' →
      (∀ j, ((¬ j ∈ L) ∨ j = i) → s'.con[j]? = s.con[j]?) ∧
      (∀ j, j ∈ L → ¬ j = i → ∃ dst p, s.con[j]? = some dst ∧
          addPayloadForG gsSrc dst.groups p0 = Except.ok p ∧
          s'.con[j]? = some (addContact dst now p).2) ∧
      s'.used = s.used ∧ s'.supply = s.supply ∧ s'.con.length = s.con.length ∧
      (∀ pr ∈ s.added, pr ∈ s'.added) := by
  intro L
  induction L with
  | nil =>
    intro _ s s' h
    injection h with h'
    subst h'
    exact ⟨fun j _ => rfl, fun j hj => absurd hj (List.not_mem_nil j), rfl, rfl, rfl,
      fun pr hpr => hpr⟩
  | cons j0 L ih =>
    intro hnd s s' h
    rw [List.nodup_cons] at hnd
    simp only [foldE] at h
    cases hstep : destStepC i now gsSrc p0 s j0 with
    | error e => rw [hstep] at h; exact absurd h (by simp)
    | ok s1 =>
      rw [hstep] at h
      rcases ih hnd.2 s1 s' h with ⟨hA, hB, hused, hsup, hlen, hadd⟩
      by_cases hji : j0 = i
      · have hs1 : s1 = s := by
          unfold destStepC at hstep
          rw [if_pos hji] at hstep
          injection hstep with h'
          exact h'.symm
        subst hs1
        refine ⟨?_, ?_, hused, hsup, hlen, hadd⟩
        · intro j hj
          apply hA
          rcases hj with hj | hj
          · exact Or.inl (fun hmem => hj (List.mem_cons_of_mem j0 hmem))
          · exact Or.inr hj
        · intro j hj hne
          rcases List.mem_cons.mp hj with rfl | hj2
          · exact absurd hji hne
          · exact hB j hj2 hne
      · unfold destStepC at hstep
        rw [if_neg hji] at hstep
        cases hdst : s.con[j0]? with
        | none => rw [hdst] at hstep; exact absurd hstep (by simp)
        | some dst =>
          rw [hdst] at hstep
          dsimp only at hstep
          cases hpay : addPayloadForG gsSrc dst.groups p0 with
          | error e => rw [hpay] at hstep; exact absurd hstep (by simp)
          | ok p =>
            rw [hpay] at hstep
            dsimp only at hstep
            injection hstep with h'
            subst h'
            refine ⟨?_, ?_, hused, hsup, ?_, ?_⟩
            · intro j hj
              have hjj0 : ¬ j0 = j := by
                rcases hj with hj | hj
                · intro he; exact hj (he ▸ List.mem_cons_self j0 L)
                · intro he; exact hji (he.trans hj)
              rw [hA j (by
                rcases hj with hj | hj
                · exact Or.inl (fun hmem => hj (List.mem_cons_of_mem j0 hmem))
                · exact Or.inr hj)]
              exact List.getElem?_set_ne hjj0
            · intro j hj hne
              rcases List.mem_cons.mp hj with rfl | hj2
              · refine ⟨dst, p, hdst, hpay, ?_⟩
                rw [hA j (Or.inl hnd.1)]
                have hlt : j < s.con.length := lt_of_getElem?_some hdst
                exact List.getElem?_set_self hlt
              · rcases hB j hj2 hne with ⟨dst', p', h1, h2, h3⟩
                have hjj0 : ¬ j0 = j := fun he => hnd.1 (he ▸ hj2)
                rw [List.getElem?_set_ne hjj0] at h1
                exact ⟨dst', p', h1, h2, h3⟩
            · rw [hlen]
              exact List.length_set s.con j0 _
            · intro pr hpr
              exact hadd pr (List.mem_append.mpr (Or.inl hpr))

/-- Full characterization of the group addition fan-out over a list of
destination indices. -/
theorem foldE_destG (i : Nat) (now : Time) (tmp : GroupPayload) :
    ∀ (L : List Nat), L.Nodup → ∀ (s s' : CSt),
      foldE (destStepG i now tmp) L s = Except.ok s' →
      (∀ j, ((¬ j ∈ L) ∨ j = i) → s'.con[j]? = s.con[j]?) ∧
      (∀ j, j ∈ L → ¬ j = i → ∃ dst, s.con[j]? = some dst ∧
          s'.con[j]? = some (addGroupR dst now tmp).2) ∧
      s'.used = s.used ∧ s'.supply = s.supply ∧ s'.con.length = s.con.length ∧
      (∀ pr ∈ s.added, pr ∈ s'.added) := by
  intro L
  induction L with
  | nil =>
    intro _ s s' h
    injection h with h'
    subst h'
    exact ⟨fun j _ => rfl, fun j hj => absurd hj (List.not_mem_nil j), rfl, rfl, rfl,
      fun pr hpr => hpr⟩
  | cons j0 L ih =>
    intro hnd s s' h
    rw [List.nodup_cons] at hnd
    simp only [foldE] at h
    cases hstep : destStepG i now tmp s j0 with
    | error e => rw [hstep] at h; exact absurd h (by simp)
    | ok s1 =>
      rw [hstep] at h
      rcases ih hnd.2 s1 s' h with ⟨hA, hB, hused, hsup, hlen, hadd⟩
      by_cases hji : j0 = i
      · have hs1 : s1 = s := by
          unfold destStepG at hstep
          rw [if_pos hji] at hstep
          injection hstep with h'
          exact h'.symm
        subst hs1
        refine ⟨?_, ?_, hused, hsup, hlen, hadd⟩
        · intro j hj
          apply hA
          rcases hj with hj | hj
          · exact Or.inl (fun hmem => hj (List.mem_cons_of_mem j0 hmem))
          · exact Or.inr hj
        · intro j hj hne
          rcases List.mem_cons.mp hj with rfl | hj2
          · exact absurd hji hne
          · exact hB j hj2 hne
      · unfold destStepG at hstep
        rw [if_neg hji] at hstep
        cases hdst : s.con[j0]? with
        | none => rw [hdst] at hstep; exact absurd hstep (by simp)
        | some dst =>
          rw [hdst] at hstep
          dsimp only at hstep
          injection hstep with h'
          subst h'
          refine ⟨?_, ?_, hused, hsup, ?_, ?_⟩
          · intro j hj
            have hjj0 : ¬ j0 = j := by
              rcases hj with hj | hj
              · intro he; exact hj (he ▸ List.mem_cons_self j0 L)
              · intro he; exact hji (he.trans hj)
            rw [hA j (by
              rcases hj with hj | hj
              · exact Or.inl (fun hmem => hj (List.mem_cons_of_mem j0 hmem))
              · exact Or.inr hj)]
            exact List.getElem?_set_ne hjj0
          · intro j hj hne
            rcases List.mem_cons.mp hj with rfl | hj2
            · refine ⟨dst, hdst, ?_⟩
              rw [hA j (Or.inl hnd.1)]
              have hlt : j < s.con.length := lt_of_getElem?_some hdst
              exact List.getElem?_set_self hlt
            · rcases hB j hj2 hne with ⟨dst', h1, h3⟩
              have hjj0 : ¬ j0 = j := fun he => hnd.1 (he ▸ hj2)
              rw [List.getElem?_set_ne hjj0] at h1
              exact ⟨dst', h1, h3⟩
          · rw [hlen]
            exact List.length_set s.con j0 _
          · intro pr hpr
            exact hadd pr (List.mem_append.mpr (Or.inl hpr))

/-- What processing one untagged contact does to the phase state: lengths
and groups are preserved, the used set only grows, the two structural
invariants are maintained, every record not targeted by the retag survives,
and a fresh tag is allocated whose propagation to every other account is
established, while the counts of all previously used tags are untouched
and every stored contact is an old one or carries the fresh tag. -/
theorem processRecordC_step {now : Time} {i' : Nat} {rn' : RN} {s s' : CSt}
    (hok : processRecordC now i' rn' s = Except.ok s')
    (hN : rnsNodupC s) (hU : conTagsOk s)
    {c0 : ContactRec} (hc0 : memAtC s i' c0) (hrn : c0.rn = rn') (htag : c0.tag = none) :
    s'.con.length = s.con.length ∧
    (∀ j, groupsAt s' j = groupsAt s j) ∧
    (∀ x ∈ s.used, x ∈ s'.used) ∧
    conTagsOk s' ∧ rnsNodupC s' ∧
    (∀ j d, memAtC s j d → (¬ j = i' ∨ ¬ d.rn = rn') → memAtC s' j d) ∧
    ∃ tN, ¬ tN ∈ s.used ∧ tN ∈ s'.used ∧
      (∀ j d, memAtC s' j d → memAtC s j d ∨ d.tag = some tN) ∧
      (∀ x ∈ s.used, ∀ (j : Nat) (rep rep' : Replica),
        s.con[j]? = some rep → s'.con[j]? = some rep' →
        tagCountC rep' x = tagCountC rep x) ∧
      estPropC (groupsAt s i') (groupsAt s) i'
        { name := c0.name, clientTag := some tN, memberships := c0.memberships } tN s' := by
  obtain ⟨acc0, hacc0, hc0mem⟩ := hc0
  have hacc0mem : acc0 ∈ s.con := List.getElem?_mem hacc0
  have hNacc : (acc0.contacts.map (fun c => c.rn)).Nodup := hN acc0 hacc0mem
  have hilt : i' < s.con.length := lt_of_getElem?_some hacc0
  unfold processRecordC at hok
  cases hpf : popFresh s.supply s.used with
  | none => rw [hpf] at hok; exact absurd hok (by simp)
  | some pr =>
    obtain ⟨t, sup'⟩ := pr
    rw [hpf, hacc0] at hok
    dsimp only at hok
    have hget := getContact_updateTagC (t := t) hNacc hc0mem hrn
    rw [hget] at hok
    dsimp only at hok
    have htfresh : ¬ t ∈ s.used := (popFresh_spec s.supply s.used t sup' hpf).1
    obtain ⟨hA, hB, hused, hsup, hlen, hadd⟩ :=
      foldE_destC i' now (updateTagC acc0 rn' t).groups
        { name := c0.name, clientTag := some t, memberships := c0.memberships }
        _ (List.nodup_range _) _ s' hok
    -- facts about the intermediate state
    have hst1len : (s.con.set i' (updateTagC acc0 rn' t)).length = s.con.length :=
      List.length_set s.con i' _
    have hst1i : (s.con.set i' (updateTagC acc0 rn' t))[i']? =
        some (updateTagC acc0 rn' t) :=
      List.getElem?_set_self hilt
    have hst1ne : ∀ j, ¬ j = i' →
        (s.con.set i' (updateTagC acc0 rn' t))[j]? = s.con[j]? := by
      intro j hj
      exact List.getElem?_set_ne (fun he => hj he.symm)
    have hslen : s'.con.length = s.con.length := by rw [hlen]; exact hst1len
    -- s' at the source account
    have hsi : s'.con[i']? = some (updateTagC acc0 rn' t) := by
      rw [hA i' (Or.inr rfl)]
      exact hst1i
    -- s' at another in-range account
    have hout : ∀ j, ¬ j < s.con.length → s'.con[j]? = none := by
      intro j hj
      rw [List.getElem?_eq_none]
      rw [hslen]
      exact Nat.le_of_not_lt hj
    have hBs : ∀ j, j < s.con.length → ¬ j = i' → ∃ dst p, s.con[j]? = some dst ∧
        addPayloadForG (updateTagC acc0 rn' t).groups dst.groups
          { name := c0.name, clientTag := some t, memberships := c0.memberships }
          = Except.ok p ∧
        s'.con[j]? = some (addContact dst now p).2 := by
      intro j hj hne
      have hjr : j ∈ List.range (s.con.set i' (updateTagC acc0 rn' t)).length := by
        rw [List.mem_range, hst1len]
        exact hj
      rcases hB j hjr hne with ⟨dst, p, h1, h2, h3⟩
      rw [hst1ne j hne] at h1
      exact ⟨dst, p, h1, h2, h3⟩
    have huntouched : ∀ j, ¬ j < s.con.length → s'.con[j]? = s.con[j]? := by
      intro j hj
      rw [hout j hj, List.getElem?_eq_none (Nat.le_of_not_lt hj)]
    -- the membership decomposition of a destination account
    have hsplit : ∀ (dst : Replica) (p : ContactPayload) (d : ContactRec),
        d ∈ ((addContact dst now p).2).contacts →
        d ∈ dst.contacts ∨
          d = { rn := freshRnC dst, tag := p.clientTag, name := p.name, updated := now,
                memberships := p.memberships } := by
      intro dst p d hd
      rw [addContact_snd] at hd
      rcases List.mem_append.mp hd with h | h
      · exact Or.inl h
      · exact Or.inr (List.mem_singleton.mp h)
    refine ⟨hslen, ?_, ?_, ?_, ?_, ?_, ?_⟩
    · -- groups preserved
      intro j
      by_cases hj : j < s.con.length
      · by_cases hji : j = i'
        · subst hji
          unfold groupsAt
          rw [hsi, hacc0]
          rfl
        · rcases hBs j hj hji with ⟨dst, p, h1, _, h3⟩
          unfold groupsAt
          rw [h3, h1]
          rfl
      · unfold groupsAt
        rw [huntouched j hj]
    · -- used grows
      intro x hx
      rw [hused]
      exact List.mem_cons_of_mem t hx
    · -- conTagsOk preserved
      intro rep' hrep' c hc x hx
      rcases List.getElem?_of_mem hrep' with ⟨j, hj⟩
      have hjlt : j < s.con.length := by
        have := lt_of_getElem?_some hj
        rw [hslen] at this
        exact this
      rw [hused]
      by_cases hji : j = i'
      · subst hji
        rw [hsi] at hj
        injection hj with hj
        subst hj
        rcases retagC_prov c hc with hold | hnew
        · exact List.mem_cons_of_mem t (hU acc0 hacc0mem c hold x hx)
        · rw [hnew] at hx
          injection hx with hx
          rw [← hx]
          exact List.mem_cons_self t s.used
      · rcases hBs j hjlt hji with ⟨dst, p, h1, h2, h3⟩
        rw [h3] at hj
        injection hj with hj
        subst hj
        rcases hsplit dst p c hc with hold | hnew
        · exact List.mem_cons_of_mem t (hU dst (List.getElem?_mem h1) c hold x hx)
        · have hcl : p.clientTag = some t := (addPayloadForG_fields h2).2
          rw [hnew] at hx
          dsimp only at hx
          rw [hcl] at hx
          injection hx with hx
          rw [← hx]
          exact List.mem_cons_self t s.used
    · -- rnsNodupC preserved
      intro rep' hrep'
      rcases List.getElem?_of_mem hrep' with ⟨j, hj⟩
      have hjlt : j < s.con.length := by
        have := lt_of_getElem?_some hj
        rw [hslen] at this
        exact this
      by_cases hji : j = i'
      · subst hji
        rw [hsi] at hj
        injection hj with hj
        subst hj
        unfold updateTagC
        dsimp only
        rw [retagC_rnsMap]
        exact hNacc
      · rcases hBs j hjlt hji with ⟨dst, p, h1, _, h3⟩
        rw [h3] at hj
        injection hj with hj
        subst hj
        rw [addContact_snd]
        dsimp only
        rw [List.map_append]
        rw [List.nodup_append]
        refine ⟨hN dst (List.getElem?_mem h1), List.nodup_singleton _, ?_⟩
        intro x hxm hxs
        rcases List.mem_map.mp hxm with ⟨c, hcm, rfl⟩
        have hxeq : c.rn = freshRnC dst := by simpa using hxs
        exact freshRnC_fresh dst c hcm hxeq
    · -- keep
      intro j d hd hcond
      obtain ⟨rep, hrep, hdm⟩ := hd
      have hjlt : j < s.con.length := lt_of_getElem?_some hrep
      by_cases hji : j = i'
      · subst hji
        rw [hacc0] at hrep
        injection hrep with hrep
        subst hrep
        rcases hcond with hcond | hcond
        · exact absurd rfl hcond
        · exact ⟨updateTagC acc0 rn' t, hsi, retagC_mem_of_ne hdm hcond⟩
      · rcases hBs j hjlt hji with ⟨dst, p, h1, _, h3⟩
        rw [h1] at hrep
        injection hrep with hrep
        subst hrep
        refine ⟨(addContact dst now p).2, h3, ?_⟩
        rw [addContact_snd]
        exact List.mem_append.mpr (Or.inl hdm)
    · -- the fresh tag and its properties
      refine ⟨t, htfresh, ?_, ?_, ?_, ?_⟩
      · rw [hused]
        exact List.mem_cons_self t s.used
      · -- provenance
        intro j d hd
        obtain ⟨rep', hrep', hdm⟩ := hd
        have hjlt : j < s.con.length := by
          have := lt_of_getElem?_some hrep'
          rw [hslen] at this
          exact this
        by_cases hji : j = i'
        · subst hji
          rw [hsi] at hrep'
          injection hrep' with hrep'
          subst hrep'
          rcases retagC_prov d hdm with hold | hnew
          · exact Or.inl ⟨acc0, hacc0, hold⟩
          · exact Or.inr hnew
        · rcases hBs j hjlt hji with ⟨dst, p, h1, h2, h3⟩
          rw [h3] at hrep'
          injection hrep' with hrep'
          subst hrep'
          rcases hsplit dst p d hdm with hold | hnew
          · exact Or.inl ⟨dst, h1, hold⟩
          · refine Or.inr ?_
            rw [hnew]
            exact (addPayloadForG_fields h2).2
      · -- frame
        intro x hx j rep rep' hrep hrep'
        have hxt : ¬ x = t := fun he => htfresh (he ▸ hx)
        have hxt2 : ¬ t = x := fun he => hxt he.symm
        by_cases hji : j = i'
        · subst hji
          have e1 : rep = acc0 := by
            rw [hacc0] at hrep
            injection hrep with h
            exact h.symm
          have e2 : rep' = updateTagC acc0 rn' t := by
            rw [hsi] at hrep'
            injection hrep' with h
            exact h.symm
          rw [e1, e2]
          unfold tagCountC updateTagC
          dsimp only
          apply countP_map_congr
          intro c hcm
          by_cases hcrn : c.rn = rn'
          · have hceq : c = c0 := nodup_proj_inj (fun c => c.rn) acc0.contacts hNacc
              c hcm c0 hc0mem (by show c.rn = c0.rn; rw [hcrn, hrn])
            rw [hceq]
            simp [hrn, htag, hxt2]
          · have hb : (c.rn == rn') = false := by simp [hcrn]
            simp [hb]
        · rcases hBs j (lt_of_getElem?_some hrep) hji with ⟨dst, p, h1, h2, h3⟩
          have e1 : rep = dst := by
            rw [h1] at hrep
            injection hrep with h
            exact h.symm
          have e2 : rep' = (addContact dst now p).2 := by
            rw [h3] at hrep'
            injection hrep' with h
            exact h.symm
          rw [e1, e2, addContact_snd]
          unfold tagCountC
          dsimp only
          rw [List.countP_append]
          have hcl : p.clientTag = some t := (addPayloadForG_fields h2).2
          have hone : List.countP (fun c => c.tag == some x)
              [ContactRec.mk (freshRnC dst) p.clientTag p.name now p.memberships] = 0 := by
            rw [List.countP_eq_zero]
            intro a ha
            rw [List.mem_singleton.mp ha]
            simp [hcl, hxt2]
          rw [hone]
          omega
      · -- establishment
        intro j hj hne
        have hjlt : j < s.con.length := by rw [← hslen]; exact hj
        rcases hBs j hjlt hne with ⟨dst, p, h1, h2, h3⟩
        have hcl : p.clientTag = some t := (addPayloadForG_fields h2).2
        refine ⟨(addContact dst now p).2, h3, ?_, ?_⟩
        · show (((addContact dst now p).2).contacts.countP (fun c => c.tag == some t)) = 1
          rw [addContact_snd]
          show ((dst.contacts ++ [_]).countP _) = 1
          rw [List.countP_append]
          have hz : (dst.contacts.countP (fun c => c.tag == some t)) = 0 := by
            rw [List.countP_eq_zero]
            intro a ha hat
            have : a.tag = some t := by simpa using hat
            exact htfresh (hU dst (List.getElem?_mem h1) a ha t this)
          rw [hz]
          simp [hcl]
        · intro d hd hdt
          rcases hsplit dst p d hd with hold | hnew
          · exact absurd (hU dst (List.getElem?_mem h1) d hold t hdt) htfresh
          · subst hnew
            have hgsI : groupsAt s i' = (updateTagC acc0 rn' t).groups := by
              unfold groupsAt
              rw [hacc0]
              rfl
            have hgsJ : groupsAt s j = dst.groups := by
              unfold groupsAt
              rw [h1]
              rfl
            rw [hgsI, hgsJ]
            have hpv :
                payloadOfC (ContactRec.mk (freshRnC dst) p.clientTag p.name now p.memberships)
                  = p := rfl
            rw [hpv]
            exact h2

/-- An established propagation survives the processing of one further
untagged contact: the counts of the established tag are framed and every
new record carries a different, fresh tag. -/
theorem estPropC_step {now : Time} {i' : Nat} {rn' : RN} {s s' : CSt}
    (hok : processRecordC now i' rn' s = Except.ok s')
    (hN : rnsNodupC s) (hU : conTagsOk s)
    {c0 : ContactRec} (hc0 : memAtC s i' c0) (hrn : c0.rn = rn') (htag : c0.tag = none)
    {gsI : List GroupRec} {gs : Nat → List GroupRec} {icl : Nat} {cp : ContactPayload}
    {t : Tag} (ht : t ∈ s.used) (hQ : estPropC gsI gs icl cp t s) :
    estPropC gsI gs icl cp t s' := by
  obtain ⟨hlen, _, _, _, _, _, tN, htN, _, hprov, hframe, _⟩ :=
    processRecordC_step hok hN hU hc0 hrn htag
  intro j hj hne
  have hjs : j < s.con.length := by rw [← hlen]; exact hj
  rcases hQ j hjs hne with ⟨repJ, hrepJ, hcount, hpay⟩
  have hrepJ' : s'.con[j]? = some s'.con[j] := List.getElem?_eq_getElem hj
  refine ⟨s'.con[j], hrepJ', ?_, ?_⟩
  · rw [hframe t ht j repJ s'.con[j] hrepJ hrepJ']
    exact hcount
  · intro d hd hdt
    rcases hprov j d ⟨s'.con[j], hrepJ', hd⟩ with hold | hnew
    · obtain ⟨repJ2, hrepJ2, hd2⟩ := hold
      rw [hrepJ] at hrepJ2
      injection hrepJ2 with h
      rw [← h] at hd2
      exact hpay d hd2 hdt
    · have htt : tN = t := by
        rw [hnew] at hdt
        injection hdt
      exact absurd (htt ▸ ht) htN

/-- Targets of the tail of a record list survive the head's processing. -/
theorem targetsAvailC_step {s s1 : CSt} {i' : Nat} {rn0 : RN} {l : List RN}
    (hkeep : ∀ j d, memAtC s j d → (¬ j = i' ∨ ¬ d.rn = rn0) → memAtC s1 j d)
    (hnotmem : ¬ rn0 ∈ l)
    (htv : targetsAvailC s i' (rn0 :: l)) : targetsAvailC s1 i' l := by
  intro rn hrn
  obtain ⟨c1, hc1, hc1rn, hc1tag⟩ := htv rn (List.mem_cons_of_mem rn0 hrn)
  have hrne : ¬ c1.rn = rn0 := by rw [hc1rn]; intro he; exact hnotmem (he ▸ hrn)
  exact ⟨c1, hkeep i' c1 hc1 (Or.inr hrne), hc1rn, hc1tag⟩

/-- Preservation along an account's whole record list: invariants hold at
the end, records of other accounts survive, and established propagations
persist. -/
theorem foldRecC_pres (now : Time) (i' : Nat) :
    ∀ (l : List RN) (s s' : CSt), l.Nodup →
      foldE (fun s rn => processRecordC now i' rn s) l s = Except.ok s' →
      rnsNodupC s → conTagsOk s → targetsAvailC s i' l →
      s'.con.length = s.con.length ∧
      (∀ j, groupsAt s' j = groupsAt s j) ∧
      (∀ x ∈ s.used, x ∈ s'.used) ∧
      conTagsOk s' ∧ rnsNodupC s' ∧
      (∀ j d, memAtC s j d → ¬ j = i' → memAtC s' j d) ∧
      (∀ (gsI : List GroupRec) (gs : Nat → List GroupRec) (icl : Nat)
        (cp : ContactPayload) (t : Tag), t ∈ s.used →
        estPropC gsI gs icl cp t s → estPropC gsI gs icl cp t s') := by
  intro l
  induction l with
  | nil =>
    intro s s' _ hf hN hU _
    injection hf with h'
    subst h'
    exact ⟨rfl, fun j => rfl, fun x hx => hx, hU, hN, fun j d hd _ => hd,
      fun _ _ _ _ _ _ hQ => hQ⟩
  | cons rn0 l ih =>
    intro s s' hnd hf hN hU htv
    rw [List.nodup_cons] at hnd
    simp only [foldE] at hf
    cases hstep : processRecordC now i' rn0 s with
    | error e => rw [hstep] at hf; exact absurd hf (by simp)
    | ok s1 =>
      rw [hstep] at hf
      obtain ⟨c0, hc0, hc0rn, hc0tag⟩ := htv rn0 (List.mem_cons_self rn0 l)
      obtain ⟨hlen1, hgrp1, hmono1, hU1, hN1, hkeep1, tN, htN, htN1, hprov1, hframe1, _⟩ :=
        processRecordC_step hstep hN hU hc0 hc0rn hc0tag
      have htv1 : targetsAvailC s1 i' l := targetsAvailC_step hkeep1 hnd.1 htv
      obtain ⟨hlen2, hgrp2, hmono2, hU2, hN2, hkeep2, hQ2⟩ := ih s1 s' hnd.2 hf hN1 hU1 htv1
      refine ⟨hlen2.trans hlen1, fun j => (hgrp2 j).trans (hgrp1 j),
        fun x hx => hmono2 x (hmono1 x hx), hU2, hN2, ?_, ?_⟩
      · intro j d hd hne
        exact hkeep2 j d (hkeep1 j d hd (Or.inl hne)) hne
      · intro gsI gs icl cp t ht hQ
        exact hQ2 gsI gs icl cp t (hmono1 t ht)
          (estPropC_step hstep hN hU hc0 hc0rn hc0tag ht hQ)

/-- If the pending contact's resource name is in the record list, its
propagation is established by the end of the list. -/
theorem foldRecC_est (now : Time) (i' : Nat) :
    ∀ (l : List RN) (s s' : CSt), l.Nodup →
      foldE (fun s rn => processRecordC now i' rn s) l s = Except.ok s' →
      rnsNodupC s → conTagsOk s → targetsAvailC s i' l →
      ∀ c, memAtC s i' c → c.tag = none → c.rn ∈ l →
      ∃ t, t ∈ s'.used ∧ estPropC (groupsAt s i') (groupsAt s) i'
        { name := c.name, clientTag := some t, memberships := c.memberships } t s' := by
  intro l
  induction l with
  | nil => intro s s' _ _ _ _ _ c _ _ hm; exact absurd hm (List.not_mem_nil _)
  | cons rn0 l ih =>
    intro s s' hnd hf hN hU htv c hc hct hmem
    rw [List.nodup_cons] at hnd
    simp only [foldE] at hf
    cases hstep : processRecordC now i' rn0 s with
    | error e => rw [hstep] at hf; exact absurd hf (by simp)
    | ok s1 =>
      rw [hstep] at hf
      by_cases hcrn : c.rn = rn0
      · obtain ⟨hlen1, hgrp1, hmono1, hU1, hN1, hkeep1, tN, htN, htN1, hprov1, hframe1, hest1⟩ :=
          processRecordC_step hstep hN hU hc hcrn hct
        have htv1 : targetsAvailC s1 i' l := targetsAvailC_step hkeep1 hnd.1 htv
        obtain ⟨_, _, hmono2, _, _, _, hQ2⟩ :=
          foldRecC_pres now i' l s1 s' hnd.2 hf hN1 hU1 htv1
        exact ⟨tN, hmono2 tN htN1,
          hQ2 (groupsAt s i') (groupsAt s) i' _ tN htN1 hest1⟩
      · obtain ⟨c0, hc0, hc0rn, hc0tag⟩ := htv rn0 (List.mem_cons_self rn0 l)
        obtain ⟨hlen1, hgrp1, hmono1, hU1, hN1, hkeep1, _⟩ :=
          processRecordC_step hstep hN hU hc0 hc0rn hc0tag
        have htv1 : targetsAvailC s1 i' l := targetsAvailC_step hkeep1 hnd.1 htv
        have hc1 : memAtC s1 i' c := hkeep1 i' c hc (Or.inr hcrn)
        have hmem1 : c.rn ∈ l := by
          rcases List.mem_cons.mp hmem with h | h
          · exact absurd h hcrn
          · exact h
        have hres := ih s1 s' hnd.2 hf hN1 hU1 htv1 c hc1 hct hmem1
        have hgs : groupsAt s1 = groupsAt s := funext hgrp1
        rw [hgs] at hres
        exact hres

/-- Preservation over one whole account of the contact addition phase. -/
theorem processAccountC_pres {now : Time} {i' : Nat} {s s' : CSt}
    (hok : processAccountC now i' s = Except.ok s')
    (hN : rnsNodupC s) (hU : conTagsOk s) :
    s'.con.length = s.con.length ∧ (∀ j, groupsAt s' j = groupsAt s j) ∧
    (∀ x ∈ s.used, x ∈ s'.used) ∧ conTagsOk s' ∧ rnsNodupC s' ∧
    (∀ j d, memAtC s j d → ¬ j = i' → memAtC s' j d) ∧
    (∀ (gsI : List GroupRec) (gs : Nat → List GroupRec) (icl : Nat)
      (cp : ContactPayload) (t : Tag), t ∈ s.used →
      estPropC gsI gs icl cp t s → estPropC gsI gs icl cp t s') := by
  unfold processAccountC at hok
  cases hacc : s.con[i']? with
  | none => rw [hacc] at hok; exact absurd hok (by simp)
  | some acc =>
    rw [hacc] at hok
    dsimp only at hok
    have hndl : ((acc.contacts.filter (fun c => c.tag == none)).map
        (fun c => c.rn)).Nodup := by
      have hsub : ((acc.contacts.filter (fun c => c.tag == none)).map
          (fun c => c.rn)).Sublist (acc.contacts.map (fun c => c.rn)) :=
        (List.filter_sublist _).map _
      exact (hN acc (List.getElem?_mem hacc)).sublist hsub
    have htv : targetsAvailC s i'
        ((acc.contacts.filter (fun c => c.tag == none)).map (fun c => c.rn)) := by
      intro rn hrn
      rcases List.mem_map.mp hrn with ⟨c, hcf, rfl⟩
      rcases List.mem_filter.mp hcf with ⟨hcm, hcb⟩
      exact ⟨c, ⟨acc, hacc, hcm⟩, rfl, by simpa using hcb⟩
    exact foldRecC_pres now i' _ s s' hndl hok hN hU htv

/-- Establishment over one whole account: every untagged contact of the
account the phase reaches gets its propagation established. -/
theorem processAccountC_est {now : Time} {i' : Nat} {s s' : CSt}
    (hok : processAccountC now i' s = Except.ok s')
    (hN : rnsNodupC s) (hU : conTagsOk s)
    {c : ContactRec} (hc : memAtC s i' c) (hct : c.tag = none) :
    ∃ t, t ∈ s'.used ∧ estPropC (groupsAt s i') (groupsAt s) i'
      { name := c.name, clientTag := some t, memberships := c.memberships } t s' := by
  unfold processAccountC at hok
  obtain ⟨acc, hacc, hcm⟩ := hc
  rw [hacc] at hok
  dsimp only at hok
  have hndl : ((acc.contacts.filter (fun c => c.tag == none)).map
      (fun c => c.rn)).Nodup := by
    have hsub : ((acc.contacts.filter (fun c => c.tag == none)).map
        (fun c => c.rn)).Sublist (acc.contacts.map (fun c => c.rn)) :=
      (List.filter_sublist _).map _
    exact (hN acc (List.getElem?_mem hacc)).sublist hsub
  have htv : targetsAvailC s i'
      ((acc.contacts.filter (fun c => c.tag == none)).map (fun c => c.rn)) := by
    intro rn hrn
    rcases List.mem_map.mp hrn with ⟨c1, hcf, rfl⟩
    rcases List.mem_filter.mp hcf with ⟨hcm1, hcb⟩
    exact ⟨c1, ⟨acc, hacc, hcm1⟩, rfl, by simpa using hcb⟩
  have hmem : c.rn ∈ (acc.contacts.filter (fun c => c.tag == none)).map (fun c => c.rn) :=
    List.mem_map_of_mem _ (List.mem_filter.mpr ⟨hcm, by simp [hct]⟩)
  exact foldRecC_est now i' _ s s' hndl hok hN hU htv c ⟨acc, hacc, hcm⟩ hct hmem

/-- Preservation along a list of accounts of the contact addition phase. -/
theorem foldAccC_pres (now : Time) :
    ∀ (L : List Nat) (s s' : CSt),
      foldE (fun s i => processAccountC now i s) L s = Except.ok s' →
      rnsNodupC s → conTagsOk s →
      s'.con.length = s.con.length ∧ (∀ j, groupsAt s' j = groupsAt s j) ∧
      (∀ x ∈ s.used, x ∈ s'.used) ∧ conTagsOk s' ∧ rnsNodupC s' ∧
      (∀ j d, memAtC s j d → ¬ j ∈ L → memAtC s' j d) ∧
      (∀ (gsI : List GroupRec) (gs : Nat → List GroupRec) (icl : Nat)
        (cp : ContactPayload) (t : Tag), t ∈ s.used →
        estPropC gsI gs icl cp t s → estPropC gsI gs icl cp t s') := by
  intro L
  induction L with
  | nil =>
    intro s s' hf hN hU
    injection hf with h'
    subst h'
    exact ⟨rfl, fun j => rfl, fun x hx => hx, hU, hN, fun j d hd _ => hd,
      fun _ _ _ _ _ _ hQ => hQ⟩
  | cons i0 L ih =>
    intro s s' hf hN hU
    simp only [foldE] at hf
    cases hstep : processAccountC now i0 s with
    | error e => rw [hstep] at hf; exact absurd hf (by simp)
    | ok s1 =>
      rw [hstep] at hf
      obtain ⟨hlen1, hgrp1, hmono1, hU1, hN1, hkeep1, hQ1⟩ :=
        processAccountC_pres hstep hN hU
      obtain ⟨hlen2, hgrp2, hmono2, hU2, hN2, hkeep2, hQ2⟩ := ih s1 s' hf hN1 hU1
      refine ⟨hlen2.trans hlen1, fun j => (hgrp2 j).trans (hgrp1 j),
        fun x hx => hmono2 x (hmono1 x hx), hU2, hN2, ?_, ?_⟩
      · intro j d hd hne
        have hne0 : ¬ j = i0 := fun he => hne (he ▸ List.mem_cons_self i0 L)
        have hneL : ¬ j ∈ L := fun he => hne (List.mem_cons_of_mem i0 he)
        exact hkeep2 j d (hkeep1 j d hd hne0) hneL
      · intro gsI gs icl cp t ht hQ
        exact hQ2 gsI gs icl cp t (hmono1 t ht) (hQ1 gsI gs icl cp t ht hQ)

/-- Establishment along a list of accounts: every untagged contact of an
account in the list gets its propagation established by the end. -/
theorem foldAccC_est (now : Time) :
    ∀ (L : List Nat) (s s' : CSt),
      foldE (fun s i => processAccountC now i s) L s = Except.ok s' →
      rnsNodupC s → conTagsOk s →
      ∀ i c, i ∈ L → memAtC s i c → c.tag = none →
      ∃ t, t ∈ s'.used ∧ estPropC (groupsAt s i) (groupsAt s) i
        { name := c.name, clientTag := some t, memberships := c.memberships } t s' := by
  intro L
  induction L with
  | nil => intro s s' _ _ _ i c hm; exact absurd hm (List.not_mem_nil i)
  | cons i0 L ih =>
    intro s s' hf hN hU i c hiL hc hct
    simp only [foldE] at hf
    cases hstep : processAccountC now i0 s with
    | error e => rw [hstep] at hf; exact absurd hf (by simp)
    | ok s1 =>
      rw [hstep] at hf
      by_cases hii : i0 = i
      · subst hii
        obtain ⟨t, ht1, hest1⟩ := processAccountC_est hstep hN hU hc hct
        obtain ⟨hlen1, hgrp1, hmono1, hU1, hN1, _, _⟩ := processAccountC_pres hstep hN hU
        obtain ⟨_, _, hmono2, _, _, _, hQ2⟩ := foldAccC_pres now L s1 s' hf hN1 hU1
        exact ⟨t, hmono2 t ht1, hQ2 (groupsAt s i0) (groupsAt s) i0 _ t ht1 hest1⟩
      · obtain ⟨hlen1, hgrp1, hmono1, hU1, hN1, hkeep1, _⟩ := processAccountC_pres hstep hN hU
        have hc1 : memAtC s1 i c := hkeep1 i c hc (fun he => hii he.symm)
        have hiL1 : i ∈ L := by
          rcases List.mem_cons.mp hiL with h | h
          · exact absurd h.symm hii
          · exact h
        have hres := ih s1 s' hf hN1 hU1 i c hiL1 hc1 hct
        have hgs : groupsAt s1 = groupsAt s := funext hgrp1
        rw [hgs] at hres
        exact hres

/-- What processing one untagged group does to the phase state, given that
the supply avoids the pre-existing tags of `base`: the mirror of
`processRecordC_step` for the group addition phase. -/
theorem processRecordG_step {now : Time} {base : List Tag} {i' : Nat} {rn' : RN}
    {s s' : CSt}
    (hok : processRecordG now i' rn' s = Except.ok s')
    (hN : rnsNodupG s) (hC : grpTagCovered base s) (hS : supplyFreshG base s)
    {g0 : GroupRec} (hg0 : memAtG s i' g0) (hrn : g0.rn = rn') (htag : g0.tag = none) :
    s'.con.length = s.con.length ∧
    (∀ x ∈ s.used, x ∈ s'.used) ∧
    grpTagCovered base s' ∧ rnsNodupG s' ∧ supplyFreshG base s' ∧
    (∀ j d, memAtG s j d → (¬ j = i' ∨ ¬ d.rn = rn') → memAtG s' j d) ∧
    ∃ tN, ¬ tN ∈ s.used ∧ ¬ tN ∈ base ∧ tN ∈ s'.used ∧
      (∀ j d, memAtG s' j d → memAtG s j d ∨ d.tag = some tN) ∧
      (∀ x ∈ s.used, ∀ (j : Nat) (rep rep' : Replica),
        s.con[j]? = some rep → s'.con[j]? = some rep' →
        tagCountG rep' x = tagCountG rep x) ∧
      estPropG i' g0.name tN s' := by
  obtain ⟨acc0, hacc0, hg0mem⟩ := hg0
  have hacc0mem : acc0 ∈ s.con := List.getElem?_mem hacc0
  have hNacc : (acc0.groups.map (fun g => g.rn)).Nodup := hN acc0 hacc0mem
  have hilt : i' < s.con.length := lt_of_getElem?_some hacc0
  unfold processRecordG at hok
  cases hpf : popFresh s.supply s.used with
  | none => rw [hpf] at hok; exact absurd hok (by simp)
  | some pr =>
    obtain ⟨t, sup'⟩ := pr
    rw [hpf, hacc0] at hok
    dsimp only at hok
    have hget := getGroup_updateTagG (t := t) hNacc hg0mem hrn
    rw [hget] at hok
    dsimp only at hok
    obtain ⟨htfresh, htsup, hsub⟩ := popFresh_spec s.supply s.used t sup' hpf
    have htbase : ¬ t ∈ base := hS t htsup
    obtain ⟨hA, hB, hused, hsup, hlen, hadd⟩ :=
      foldE_destG i' now { name := g0.name, clientData := some t }
        _ (List.nodup_range _) _ s' hok
    have hst1len : (s.con.set i' (updateTagG acc0 rn' t)).length = s.con.length :=
      List.length_set s.con i' _
    have hst1i : (s.con.set i' (updateTagG acc0 rn' t))[i']? =
        some (updateTagG acc0 rn' t) :=
      List.getElem?_set_self hilt
    have hst1ne : ∀ j, ¬ j = i' →
        (s.con.set i' (updateTagG acc0 rn' t))[j]? = s.con[j]? := by
      intro j hj
      exact List.getElem?_set_ne (fun he => hj he.symm)
    have hslen : s'.con.length = s.con.length := by rw [hlen]; exact hst1len
    have hsi : s'.con[i']? = some (updateTagG acc0 rn' t) := by
      rw [hA i' (Or.inr rfl)]
      exact hst1i
    have hBs : ∀ j, j < s.con.length → ¬ j = i' → ∃ dst, s.con[j]? = some dst ∧
        s'.con[j]? = some (addGroupR dst now { name := g0.name, clientData := some t }).2 := by
      intro j hj hne
      have hjr : j ∈ List.range (s.con.set i' (updateTagG acc0 rn' t)).length := by
        rw [List.mem_range, hst1len]
        exact hj
      rcases hB j hjr hne with ⟨dst, h1, h3⟩
      rw [hst1ne j hne] at h1
      exact ⟨dst, h1, h3⟩
    have hsplit : ∀ (dst : Replica) (d : GroupRec),
        d ∈ ((addGroupR dst now { name := g0.name, clientData := some t }).2).groups →
        d ∈ dst.groups ∨ d = GroupRec.mk (freshRnG dst) (some t) g0.name now := by
      intro dst d hd
      rw [addGroupR_snd] at hd
      rcases List.mem_append.mp hd with h | h
      · exact Or.inl h
      · exact Or.inr (List.mem_singleton.mp h)
    refine ⟨hslen, ?_, ?_, ?_, ?_, ?_, ?_⟩
    · intro x hx
      rw [hused]
      exact List.mem_cons_of_mem t hx
    · -- grpTagCovered preserved
      intro rep' hrep' g hg x hx
      rcases List.getElem?_of_mem hrep' with ⟨j, hj⟩
      have hjlt : j < s.con.length := by
        have := lt_of_getElem?_some hj
        rw [hslen] at this
        exact this
      by_cases hji : j = i'
      · subst hji
        rw [hsi] at hj
        injection hj with hj
        subst hj
        rcases retagG_prov g hg with hold | hnew
        · rcases hC acc0 hacc0mem g hold x hx with hb | hu
          · exact Or.inl hb
          · refine Or.inr ?_
            rw [hused]
            exact List.mem_cons_of_mem t hu
        · refine Or.inr ?_
          rw [hnew] at hx
          injection hx with hx
          rw [← hx, hused]
          exact List.mem_cons_self t s.used
      · rcases hBs j hjlt hji with ⟨dst, h1, h3⟩
        rw [h3] at hj
        injection hj with hj
        subst hj
        rcases hsplit dst g hg with hold | hnew
        · rcases hC dst (List.getElem?_mem h1) g hold x hx with hb | hu
          · exact Or.inl hb
          · refine Or.inr ?_
            rw [hused]
            exact List.mem_cons_of_mem t hu
        · refine Or.inr ?_
          rw [hnew] at hx
          injection hx with hx
          rw [← hx, hused]
          exact List.mem_cons_self t s.used
    · -- rnsNodupG preserved
      intro rep' hrep'
      rcases List.getElem?_of_mem hrep' with ⟨j, hj⟩
      have hjlt : j < s.con.length := by
        have := lt_of_getElem?_some hj
        rw [hslen] at this
        exact this
      by_cases hji : j = i'
      · subst hji
        rw [hsi] at hj
        injection hj with hj
        subst hj
        unfold updateTagG
        dsimp only
        rw [retagG_rnsMap]
        exact hNacc
      · rcases hBs j hjlt hji with ⟨dst, h1, h3⟩
        rw [h3] at hj
        injection hj with hj
        subst hj
        rw [addGroupR_snd]
        dsimp only
        rw [List.map_append]
        rw [List.nodup_append]
        refine ⟨hN dst (List.getElem?_mem h1), List.nodup_singleton _, ?_⟩
        intro x hxm hxs
        rcases List.mem_map.mp hxm with ⟨g, hgm, rfl⟩
        have hxeq : g.rn = freshRnG dst := by simpa using hxs
        exact freshRnG_fresh dst g hgm hxeq
    · -- supplyFreshG preserved
      intro x hxsup
      rw [hsup] at hxsup
      exact hS x (hsub x hxsup)
    · -- keep
      intro j d hd hcond
      obtain ⟨rep, hrep, hdm⟩ := hd
      have hjlt : j < s.con.length := lt_of_getElem?_some hrep
      by_cases hji : j = i'
      · subst hji
        rw [hacc0] at hrep
        injection hrep with hrep
        subst hrep
        rcases hcond with hcond | hcond
        · exact absurd rfl hcond
        · exact ⟨updateTagG acc0 rn' t, hsi, retagG_mem_of_ne hdm hcond⟩
      · rcases hBs j hjlt hji with ⟨dst, h1, h3⟩
        rw [h1] at hrep
        injection hrep with hrep
        subst hrep
        refine ⟨(addGroupR dst now { name := g0.name, clientData := some t }).2, h3, ?_⟩
        rw [addGroupR_snd]
        exact List.mem_append.mpr (Or.inl hdm)
    · refine ⟨t, htfresh, htbase, ?_, ?_, ?_, ?_⟩
      · rw [hused]
        exact List.mem_cons_self t s.used
      · -- provenance
        intro j d hd
        obtain ⟨rep', hrep', hdm⟩ := hd
        have hjlt : j < s.con.length := by
          have := lt_of_getElem?_some hrep'
          rw [hslen] at this
          exact this
        by_cases hji : j = i'
        · subst hji
          rw [hsi] at hrep'
          injection hrep' with hrep'
          subst hrep'
          rcases retagG_prov d hdm with hold | hnew
          · exact Or.inl ⟨acc0, hacc0, hold⟩
          · exact Or.inr hnew
        · rcases hBs j hjlt hji with ⟨dst, h1, h3⟩
          rw [h3] at hrep'
          injection hrep' with hrep'
          subst hrep'
          rcases hsplit dst d hdm with hold | hnew
          · exact Or.inl ⟨dst, h1, hold⟩
          · refine Or.inr ?_
            rw [hnew]
      · -- frame
        intro x hx j rep rep' hrep hrep'
        have hxt : ¬ x = t := fun he => htfresh (he ▸ hx)
        have hxt2 : ¬ t = x := fun he => hxt he.symm
        by_cases hji : j = i'
        · subst hji
          have e1 : rep = acc0 := by
            rw [hacc0] at hrep
            injection hrep with h
            exact h.symm
          have e2 : rep' = updateTagG acc0 rn' t := by
            rw [hsi] at hrep'
            injection hrep' with h
            exact h.symm
          rw [e1, e2]
          unfold tagCountG updateTagG
          dsimp only
          apply countP_map_congr
          intro g hgm
          by_cases hgrn : g.rn = rn'
          · have hgeq : g = g0 := nodup_proj_inj (fun g => g.rn) acc0.groups hNacc
              g hgm g0 hg0mem (by show g.rn = g0.rn; rw [hgrn, hrn])
            rw [hgeq]
            simp [hrn, htag, hxt2]
          · have hb : (g.rn == rn') = false := by simp [hgrn]
            simp [hb]
        · rcases hBs j (lt_of_getElem?_some hrep) hji with ⟨dst, h1, h3⟩
          have e1 : rep = dst := by
            rw [h1] at hrep
            injection hrep with h
            exact h.symm
          have e2 : rep' = (addGroupR dst now { name := g0.name, clientData := some t }).2 := by
            rw [h3] at hrep'
            injection hrep' with h
            exact h.symm
          rw [e1, e2, addGroupR_snd]
          unfold tagCountG
          dsimp only
          rw [List.countP_append]
          have hone : List.countP (fun g => g.tag == some x)
              [GroupRec.mk (freshRnG dst) (some t) g0.name now] = 0 := by
            rw [List.countP_eq_zero]
            intro a ha
            rw [List.mem_singleton.mp ha]
            simp [hxt2]
          rw [hone]
          omega
      · -- establishment
        intro j hj hne
        have hjlt : j < s.con.length := by rw [← hslen]; exact hj
        rcases hBs j hjlt hne with ⟨dst, h1, h3⟩
        refine ⟨(addGroupR dst now { name := g0.name, clientData := some t }).2, h3, ?_, ?_⟩
        · show (((addGroupR dst now { name := g0.name, clientData := some t }).2).groups.countP
            (fun g => g.tag == some t)) = 1
          rw [addGroupR_snd]
          dsimp only
          rw [List.countP_append]
          have hz : (dst.groups.countP (fun g => g.tag == some t)) = 0 := by
            rw [List.countP_eq_zero]
            intro a ha hat
            have hsome : a.tag = some t := by simpa using hat
            rcases hC dst (List.getElem?_mem h1) a ha t hsome with hb | hu
            · exact htbase hb
            · exact htfresh hu
          rw [hz]
          simp
        · intro d hd hdt
          rcases hsplit dst d hd with hold | hnew
          · rcases hC dst (List.getElem?_mem h1) d hold t hdt with hb | hu
            · exact absurd hb htbase
            · exact absurd hu htfresh
          · rw [hnew]

/-- An established group propagation survives the processing of one
further untagged group. -/
theorem estPropG_step {now : Time} {base : List Tag} {i' : Nat} {rn' : RN} {s s' : CSt}
    (hok : processRecordG now i' rn' s = Except.ok s')
    (hN : rnsNodupG s) (hC : grpTagCovered base s) (hS : supplyFreshG base s)
    {g0 : GroupRec} (hg0 : memAtG s i' g0) (hrn : g0.rn = rn') (htag : g0.tag = none)
    {icl : Nat} {nm : String} {t : Tag} (ht : t ∈ s.used) (hQ : estPropG icl nm t s) :
    estPropG icl nm t s' := by
  obtain ⟨hlen, _, _, _, _, _, tN, htN, _, _, hprov, hframe, _⟩ :=
    processRecordG_step hok hN hC hS hg0 hrn htag
  intro j hj hne
  have hjs : j < s.con.length := by rw [← hlen]; exact hj
  rcases hQ j hjs hne with ⟨repJ, hrepJ, hcount, hname⟩
  have hrepJ' : s'.con[j]? = some s'.con[j] := List.getElem?_eq_getElem hj
  refine ⟨s'.con[j], hrepJ', ?_, ?_⟩
  · rw [hframe t ht j repJ s'.con[j] hrepJ hrepJ']
    exact hcount
  · intro d hd hdt
    rcases hprov j d ⟨s'.con[j], hrepJ', hd⟩ with hold | hnew
    · obtain ⟨repJ2, hrepJ2, hd2⟩ := hold
      rw [hrepJ] at hrepJ2
      injection hrepJ2 with h
      rw [← h] at hd2
      exact hname d hd2 hdt
    · have htt : tN = t := by
        rw [hnew] at hdt
        injection hdt
      exact absurd (htt ▸ ht) htN

/-- Targets of the tail of a group record list survive the head's
processing. -/
theorem targetsAvailG_step {s s1 : CSt} {i' : Nat} {rn0 : RN} {l : List RN}
    (hkeep : ∀ j d, memAtG s j d → (¬ j = i' ∨ ¬ d.rn = rn0) → memAtG s1 j d)
    (hnotmem : ¬ rn0 ∈ l)
    (htv : targetsAvailG s i' (rn0 :: l)) : targetsAvailG s1 i' l := by
  intro rn hrn
  obtain ⟨g1, hg1, hg1rn, hg1tag⟩ := htv rn (List.mem_cons_of_mem rn0 hrn)
  have hrne : ¬ g1.rn = rn0 := by rw [hg1rn]; intro he; exact hnotmem (he ▸ hrn)
  exact ⟨g1, hkeep i' g1 hg1 (Or.inr hrne), hg1rn, hg1tag⟩

/-- Preservation along an account's whole group record list. -/
theorem foldRecG_pres (now : Time) (base : List Tag) (i' : Nat) :
    ∀ (l : List RN) (s s' : CSt), l.Nodup →
      foldE (fun s rn => processRecordG now i' rn s) l s = Except.ok s' →
      rnsNodupG s → grpTagCovered base s → supplyFreshG base s → targetsAvailG s i' l →
      s'.con.length = s.con.length ∧
      (∀ x ∈ s.used, x ∈ s'.used) ∧
      grpTagCovered base s' ∧ rnsNodupG s' ∧ supplyFreshG base s' ∧
      (∀ j d, memAtG s j d → ¬ j = i' → memAtG s' j d) ∧
      (∀ (icl : Nat) (nm : String) (t : Tag), t ∈ s.used →
        estPropG icl nm t s → estPropG icl nm t s') := by
  intro l
  induction l with
  | nil =>
    intro s s' _ hf hN hC hS _
    injection hf with h'
    subst h'
    exact ⟨rfl, fun x hx => hx, hC, hN, hS, fun j d hd _ => hd, fun _ _ _ _ hQ => hQ⟩
  | cons rn0 l ih =>
    intro s s' hnd hf hN hC hS htv
    rw [List.nodup_cons] at hnd
    simp only [foldE] at hf
    cases hstep : processRecordG now i' rn0 s with
    | error e => rw [hstep] at hf; exact absurd hf (by simp)
    | ok s1 =>
      rw [hstep] at hf
      obtain ⟨g0, hg0, hg0rn, hg0tag⟩ := htv rn0 (List.mem_cons_self rn0 l)
      obtain ⟨hlen1, hmono1, hC1, hN1, hS1, hkeep1, tN, htN, htNb, htN1, hprov1, hframe1, _⟩ :=
        processRecordG_step hstep hN hC hS hg0 hg0rn hg0tag
      have htv1 : targetsAvailG s1 i' l := targetsAvailG_step hkeep1 hnd.1 htv
      obtain ⟨hlen2, hmono2, hC2, hN2, hS2, hkeep2, hQ2⟩ := ih s1 s' hnd.2 hf hN1 hC1 hS1 htv1
      refine ⟨hlen2.trans hlen1, fun x hx => hmono2 x (hmono1 x hx), hC2, hN2, hS2, ?_, ?_⟩
      · intro j d hd hne
        exact hkeep2 j d (hkeep1 j d hd (Or.inl hne)) hne
      · intro icl nm t ht hQ
        exact hQ2 icl nm t (hmono1 t ht)
          (estPropG_step hstep hN hC hS hg0 hg0rn hg0tag ht hQ)

/-- If the pending group's resource name is in the record list, its
propagation is established by the end of the list. -/
theorem foldRecG_est (now : Time) (base : List Tag) (i' : Nat) :
    ∀ (l : List RN) (s s' : CSt), l.Nodup →
      foldE (fun s rn => processRecordG now i' rn s) l s = Except.ok s' →
      rnsNodupG s → grpTagCovered base s → supplyFreshG base s → targetsAvailG s i' l →
      ∀ g, memAtG s i' g → g.tag = none → g.rn ∈ l →
      ∃ t, t ∈ s'.used ∧ estPropG i' g.name t s' := by
  intro l
  induction l with
  | nil => intro s s' _ _ _ _ _ _ g _ _ hm; exact absurd hm (List.not_mem_nil _)
  | cons rn0 l ih =>
    intro s s' hnd hf hN hC hS htv g hg hgt hmem
    rw [List.nodup_cons] at hnd
    simp only [foldE] at hf
    cases hstep : processRecordG now i' rn0 s with
    | error e => rw [hstep] at hf; exact absurd hf (by simp)
    | ok s1 =>
      rw [hstep] at hf
      by_cases hgrn : g.rn = rn0
      · obtain ⟨hlen1, hmono1, hC1, hN1, hS1, hkeep1, tN, htN, htNb, htN1, hprov1, hframe1,
          hest1⟩ := processRecordG_step hstep hN hC hS hg hgrn hgt
        have htv1 : targetsAvailG s1 i' l := targetsAvailG_step hkeep1 hnd.1 htv
        obtain ⟨_, hmono2, _, _, _, _, hQ2⟩ :=
          foldRecG_pres now base i' l s1 s' hnd.2 hf hN1 hC1 hS1 htv1
        exact ⟨tN, hmono2 tN htN1, hQ2 i' g.name tN htN1 hest1⟩
      · obtain ⟨g0, hg0, hg0rn, hg0tag⟩ := htv rn0 (List.mem_cons_self rn0 l)
        obtain ⟨hlen1, hmono1, hC1, hN1, hS1, hkeep1, _⟩ :=
          processRecordG_step hstep hN hC hS hg0 hg0rn hg0tag
        have htv1 : targetsAvailG s1 i' l := targetsAvailG_step hkeep1 hnd.1 htv
        have hg1 : memAtG s1 i' g := hkeep1 i' g hg (Or.inr hgrn)
        have hmem1 : g.rn ∈ l := by
          rcases List.mem_cons.mp hmem with h | h
          · exact absurd h hgrn
          · exact h
        exact ih s1 s' hnd.2 hf hN1 hC1 hS1 htv1 g hg1 hgt hmem1

/-- Preservation over one whole account of the group addition phase. -/
theorem processAccountG_pres {now : Time} {base : List Tag} {i' : Nat} {s s' : CSt}
    (hok : processAccountG now i' s = Except.ok s')
    (hN : rnsNodupG s) (hC : grpTagCovered base s) (hS : supplyFreshG base s) :
    s'.con.length = s.con.length ∧
    (∀ x ∈ s.used, x ∈ s'.used) ∧
    grpTagCovered base s' ∧ rnsNodupG s' ∧ supplyFreshG base s' ∧
    (∀ j d, memAtG s j d → ¬ j = i' → memAtG s' j d) ∧
    (∀ (icl : Nat) (nm : String) (t : Tag), t ∈ s.used →
      estPropG icl nm t s → estPropG icl nm t s') := by
  unfold processAccountG at hok
  cases hacc : s.con[i']? with
  | none => rw [hacc] at hok; exact absurd hok (by simp)
  | some acc =>
    rw [hacc] at hok
    dsimp only at hok
    have hndl : ((acc.groups.filter (fun g => g.tag == none)).map
        (fun g => g.rn)).Nodup := by
      have hsub : ((acc.groups.filter (fun g => g.tag == none)).map
          (fun g => g.rn)).Sublist (acc.groups.map (fun g => g.rn)) :=
        (List.filter_sublist _).map _
      exact (hN acc (List.getElem?_mem hacc)).sublist hsub
    have htv : targetsAvailG s i'
        ((acc.groups.filter (fun g => g.tag == none)).map (fun g => g.rn)) := by
      intro rn hrn
      rcases List.mem_map.mp hrn with ⟨g, hgf, rfl⟩
      rcases List.mem_filter.mp hgf with ⟨hgm, hgb⟩
      exact ⟨g, ⟨acc, hacc, hgm⟩, rfl, by simpa using hgb⟩
    exact foldRecG_pres now base i' _ s s' hndl hok hN hC hS htv

/-- Establishment over one whole account of the group addition phase. -/
theorem processAccountG_est {now : Time} {base : List Tag} {i' : Nat} {s s' : CSt}
    (hok : processAccountG now i' s = Except.ok s')
    (hN : rnsNodupG s) (hC : grpTagCovered base s) (hS : supplyFreshG base s)
    {g : GroupRec} (hg : memAtG s i' g) (hgt : g.tag = none) :
    ∃ t, t ∈ s'.used ∧ estPropG i' g.name t s' := by
  unfold processAccountG at hok
  obtain ⟨acc, hacc, hgm⟩ := hg
  rw [hacc] at hok
  dsimp only at hok
  have hndl : ((acc.groups.filter (fun g => g.tag == none)).map
      (fun g => g.rn)).Nodup := by
    have hsub : ((acc.groups.filter (fun g => g.tag == none)).map
        (fun g => g.rn)).Sublist (acc.groups.map (fun g => g.rn)) :=
      (List.filter_sublist _).map _
    exact (hN acc (List.getElem?_mem hacc)).sublist hsub
  have htv : targetsAvailG s i'
      ((acc.groups.filter (fun g => g.tag == none)).map (fun g => g.rn)) := by
    intro rn hrn
    rcases List.mem_map.mp hrn with ⟨g1, hgf, rfl⟩
    rcases List.mem_filter.mp hgf with ⟨hgm1, hgb⟩
    exact ⟨g1, ⟨acc, hacc, hgm1⟩, rfl, by simpa using hgb⟩
  have hmem : g.rn ∈ (acc.groups.filter (fun g => g.tag == none)).map (fun g => g.rn) :=
    List.mem_map_of_mem _ (List.mem_filter.mpr ⟨hgm, by simp [hgt]⟩)
  exact foldRecG_est now base i' _ s s' hndl hok hN hC hS htv g ⟨acc, hacc, hgm⟩ hgt hmem

/-- Preservation along a list of accounts of the group addition phase. -/
theorem foldAccG_pres (now : Time) (base : List Tag) :
    ∀ (L : List Nat) (s s' : CSt),
      foldE (fun s i => processAccountG now i s) L s = Except.ok s' →
      rnsNodupG s → grpTagCovered base s → supplyFreshG base s →
      s'.con.length = s.con.length ∧
      (∀ x ∈ s.used, x ∈ s'.used) ∧
      grpTagCovered base s' ∧ rnsNodupG s' ∧ supplyFreshG base s' ∧
      (∀ j d, memAtG s j d → ¬ j ∈ L → memAtG s' j d) ∧
      (∀ (icl : Nat) (nm : String) (t : Tag), t ∈ s.used →
        estPropG icl nm t s → estPropG icl nm t s') := by
  intro L
  induction L with
  | nil =>
    intro s s' hf hN hC hS
    injection hf with h'
    subst h'
    exact ⟨rfl, fun x hx => hx, hC, hN, hS, fun j d hd _ => hd, fun _ _ _ _ hQ => hQ⟩
  | cons i0 L ih =>
    intro s s' hf hN hC hS
    simp only [foldE] at hf
    cases hstep : processAccountG now i0 s with
    | error e => rw [hstep] at hf; exact absurd hf (by simp)
    | ok s1 =>
      rw [hstep] at hf
      obtain ⟨hlen1, hmono1, hC1, hN1, hS1, hkeep1, hQ1⟩ :=
        processAccountG_pres hstep hN hC hS
      obtain ⟨hlen2, hmono2, hC2, hN2, hS2, hkeep2, hQ2⟩ := ih s1 s' hf hN1 hC1 hS1
      refine ⟨hlen2.trans hlen1, fun x hx => hmono2 x (hmono1 x hx), hC2, hN2, hS2, ?_, ?_⟩
      · intro j d hd hne
        have hne0 : ¬ j = i0 := fun he => hne (he ▸ List.mem_cons_self i0 L)
        have hneL : ¬ j ∈ L := fun he => hne (List.mem_cons_of_mem i0 he)
        exact hkeep2 j d (hkeep1 j d hd hne0) hneL
      · intro icl nm t ht hQ
        exact hQ2 icl nm t (hmono1 t ht) (hQ1 icl nm t ht hQ)

/-- Establishment along a list of accounts of the group addition phase. -/
theorem foldAccG_est (now : Time) (base : List Tag) :
    ∀ (L : List Nat) (s s' : CSt),
      foldE (fun s i => processAccountG now i s) L s = Except.ok s' →
      rnsNodupG s → grpTagCovered base s → supplyFreshG base s →
      ∀ i g, i ∈ L → memAtG s i g → g.tag = none →
      ∃ t, t ∈ s'.used ∧ estPropG i g.name t s' := by
  intro L
  induction L with
  | nil => intro s s' _ _ _ _ i g hm; exact absurd hm (List.not_mem_nil i)
  | cons i0 L ih =>
    intro s s' hf hN hC hS i g hiL hg hgt
    simp only [foldE] at hf
    cases hstep : processAccountG now i0 s with
    | error e => rw [hstep] at hf; exact absurd hf (by simp)
    | ok s1 =>
      rw [hstep] at hf
      by_cases hii : i0 = i
      · subst hii
        obtain ⟨t, ht1, hest1⟩ := processAccountG_est hstep hN hC hS hg hgt
        obtain ⟨hlen1, hmono1, hC1, hN1, hS1, _, _⟩ := processAccountG_pres hstep hN hC hS
        obtain ⟨_, hmono2, _, _, _, _, hQ2⟩ := foldAccG_pres now base L s1 s' hf hN1 hC1 hS1
        exact ⟨t, hmono2 t ht1, hQ2 i0 g.name t ht1 hest1⟩
      · obtain ⟨hlen1, hmono1, hC1, hN1, hS1, hkeep1, _⟩ := processAccountG_pres hstep hN hC hS
        have hg1 : memAtG s1 i g := hkeep1 i g hg (fun he => hii he.symm)
        have hiL1 : i ∈ L := by
          rcases List.mem_cons.mp hiL with h | h
          · exact absurd h.symm hii
          · exact h
        exact ih s1 s' hf hN1 hC1 hS1 i g hiL1 hg1 hgt

/-- Claim C6: after an addition phase, for every record that was untagged
in some account at the start of the phase there is an allocated tag such
that every other account holds exactly one record bearing it, whose
payload is the source payload modulo group-membership translation — for
contacts the stored payload is the addition-phase translation of the
source payload carrying the new tag, for contact groups the stored group
carries the source group's name.  Hypotheses: the phase completed, resource
names are unique per account, for contacts every pre-existing contact tag
is in the used set (sync.py line 333 guarantees this), and for groups the
supply avoids the pre-existing group tags of `base` (the spec's no-random-
collision assumption, which the group phase does not check). -/
theorem claim6_addition_propagation :
    (∀ (now : Time) (st0 st1 : CSt),
      contactAdditionPhase now st0 = Except.ok st1 →
      rnsNodupC st0 → conTagsOk st0 →
      ∀ (i : Nat) (repI : Replica), st0.con[i]? = some repI →
      ∀ c ∈ repI.contacts, c.tag = none →
      ∃ t : Tag, ∀ j, j < st1.con.length → ¬ j = i →
        ∃ repJ, st1.con[j]? = some repJ ∧ tagCountC repJ t = 1 ∧
          ∀ d ∈ repJ.contacts, d.tag = some t →
            addPayloadForG repI.groups (groupsAt st0 j)
              { name := c.name, clientTag := some t, memberships := c.memberships }
              = Except.ok (payloadOfC d)) ∧
    (∀ (now : Time) (base : List Tag) (st0 st1 : CSt),
      groupAdditionPhase now st0 = Except.ok st1 →
      rnsNodupG st0 → grpTagCovered base st0 → supplyFreshG base st0 →
      ∀ (i : Nat) (repI : Replica), st0.con[i]? = some repI →
      ∀ g ∈ repI.groups, g.tag = none →
      ∃ t : Tag, ∀ j, j < st1.con.length → ¬ j = i →
        ∃ repJ, st1.con[j]? = some repJ ∧ tagCountG repJ t = 1 ∧
          ∀ d ∈ repJ.groups, d.tag = some t → d.name = g.name) := by
  constructor
  · intro now st0 st1 hok hN hU i repI hrep c hc hct
    unfold contactAdditionPhase at hok
    have hilt : i < st0.con.length := lt_of_getElem?_some hrep
    obtain ⟨t, _, hest⟩ := foldAccC_est now (List.range st0.con.length) st0 st1 hok hN hU
      i c (List.mem_range.mpr hilt) ⟨repI, hrep, hc⟩ hct
    refine ⟨t, ?_⟩
    have hgsI : groupsAt st0 i = repI.groups := by
      unfold groupsAt
      rw [hrep]
      rfl
    rw [hgsI] at hest
    exact hest
  · intro now base st0 st1 hok hN hC hS i repI hrep g hg hgt
    unfold groupAdditionPhase at hok
    have hilt : i < st0.con.length := lt_of_getElem?_some hrep
    obtain ⟨t, _, hest⟩ := foldAccG_est now base (List.range st0.con.length) st0 st1 hok
      hN hC hS i g (List.mem_range.mpr hilt) ⟨repI, hrep, hg⟩ hgt
    exact ⟨t, hest⟩

/-- Concrete runs of C6: the untagged contact of the addition example and
the untagged group of the group addition example are each replicated, with
one record bearing the fresh tag in the other account. -/
theorem claim6_witness :
    (∃ t : Tag, ∀ j, j < stAdd1.con.length → ¬ j = 0 →
      ∃ repJ, stAdd1.con[j]? = some repJ ∧ tagCountC repJ t = 1 ∧
        ∀ d ∈ repJ.contacts, d.tag = some t →
          addPayloadForG repAdd0.groups (groupsAt stAdd0 j)
            { name := "al", clientTag := some t, memberships := [defaultM] }
            = Except.ok (payloadOfC d)) ∧
    (∃ t : Tag, ∀ j, j < stGAdd1.con.length → ¬ j = 0 →
      ∃ repJ, stGAdd1.con[j]? = some repJ ∧ tagCountG repJ t = 1 ∧
        ∀ d ∈ repJ.groups, d.tag = some t → d.name = "Pals") :=
  ⟨claim6_addition_propagation.1 7 stAdd0 stAdd1 (by decide)
      (by intro rep hrep; fin_cases hrep <;> decide)
      (by intro rep hrep c hc t ht; fin_cases hrep <;> fin_cases hc <;> simp_all)
      0 repAdd0 (by decide)
      { rn := "a0", tag := none, name := "al", updated := 9, memberships := [defaultM] }
      (by decide) rfl,
   claim6_addition_propagation.2 4 [] stGAdd0 stGAdd1 (by decide)
      (by intro rep hrep; fin_cases hrep <;> decide)
      (by intro rep hrep g hg t ht; fin_cases hrep <;> fin_cases hg <;> simp_all)
      (by intro t htm; simp)
      0 repGAdd0 (by decide)
      { rn := "contactGroups/u1", tag := none, name := "Pals", updated := 0 }
      (by decide) rfl⟩

/-- Claim C4, amended: the update fan-out DOES mutate the caller's fetched
payload — its membership list is stripped in place to the default entries
before the loop — but each destination receives its own translated copy,
computed per destination from the stripped source by the pure function
`updPayloadFor`, so no destination's translation leaks into the source
object or into another destination's payload. -/
theorem claim4_amended :
    ∀ (con : List Replica) (i : Nat) (k : Option Tag) (contact : ContactPayload)
      (acc : Replica), con[i]? = some acc →
      ((updateFanOutC con i k contact).1.name = contact.name ∧
       (updateFanOutC con i k contact).1.clientTag = contact.clientTag ∧
       (updateFanOutC con i k contact).1.memberships
         = contact.memberships.filter isDefault) ∧
      (∀ u ∈ (updateFanOutC con i k contact).2, ∃ other, con[u.dst]? = some other ∧
        u.payload = updPayloadFor acc.groups other.groups contact) := by
  intro con i k contact acc hacc
  unfold updateFanOutC
  rw [hacc]
  dsimp only
  refine ⟨⟨rfl, rfl, rfl⟩, ?_⟩
  refine foldl_pres
    (P := fun ps : List UpdPush => ∀ u ∈ ps, ∃ other, con[u.dst]? = some other ∧
      u.payload = updPayloadFor acc.groups other.groups contact)
    _ ?_ _ _ (fun u hu => absurd hu (List.not_mem_nil u))
  intro ps j hps
  by_cases hj : j = i
  · rw [if_pos hj]
    exact hps
  · rw [if_neg hj]
    cases hcj : con[j]? with
    | none => exact hps
    | some other =>
      intro u hu
      rcases List.mem_append.mp hu with h1 | h1
      · exact hps u h1
      · rw [List.mem_singleton.mp h1]
        exact ⟨other, hcj, rfl⟩

/-- Concrete instance of the amended C4 on the fan-out example: the source
payload keeps exactly its default membership, and the single push carries
the per-destination translation. -/
theorem claim4_witness :
    (updateFanOutC conFan 0 (some "t") pFan).1.memberships
      = pFan.memberships.filter isDefault ∧
    ∀ u ∈ (updateFanOutC conFan 0 (some "t") pFan).2, ∃ other,
      conFan[u.dst]? = some other ∧
      u.payload = updPayloadFor repFan0.groups other.groups pFan :=
  ⟨(claim4_amended conFan 0 (some "t") pFan repFan0 rfl).1.2.2,
   (claim4_amended conFan 0 (some "t") pFan repFan0 rfl).2⟩

end GCSync
